import Mathlib

/-!
# Verification of the bloomberg namespace/readiness module

This file is a shallow embedding of the core of
`src/javascripts/vendor/bloomberg.js`: the namespace registrar
(`Base.prototype.namespace`) and the readiness notifier
(`Base.prototype.ready`), together with the state set up by the `Base`
constructor (`new Base("bloomberg")`).

Modelling choices (documented per definition below):
* JavaScript objects live in an explicit heap (`St.heap`), addressed by
  naturals; values (`Val`) are references, numbers, strings or booleans.
* Backbone-style classes (objects carrying `.extend`) are heap objects whose
  `ObjKind.cls` metadata records the parent class and the
  `prototype.config.namespace` record installed by `Base.prototype.namespace`.
  Backbone itself is an external collaborator; only the `extend` behaviour
  the registrar relies on (fresh subclass whose prototype carries the
  supplied `config`) is modelled.
* The jQuery event pool is modelled per the spec's description of the
  readiness notifier (section 4.2): handlers are `(eventName, callback)`
  pairs and `trigger` fires exactly the handlers subscribed to that event
  name, synchronously, in binding order.  Callbacks are inert tokens
  (naturals); invocations are reported as lists of tokens.
* Built-in members of `Object.prototype` (`toString`, ...) and prototype
  chains of plain objects are not modelled: a plain container has exactly
  its own fields.
-/

deriving instance DecidableEq for Except

namespace BW

/-- Association-list lookup: first entry whose key equals `q`. -/
def alistGet {κ α : Type} [DecidableEq κ] : List (κ × α) → κ → Option α
  | [], _ => none
  | (k, v) :: t, q => if k = q then some v else alistGet t q

/-- Association-list update: replace the first entry with key `q`, or append. -/
def alistSet {κ α : Type} [DecidableEq κ] : List (κ × α) → κ → α → List (κ × α)
  | [], q, x => [(q, x)]
  | (k, v) :: t, q, x => if k = q then (q, x) :: t else (k, v) :: alistSet t q x

/-- Splits a list of characters at every `'.'`;
mirrors JavaScript `String.prototype.split(".")` for the dot separator. -/
def splitDotsChars : List Char → List (List Char)
  | [] => [[]]
  | c :: rest =>
      let r := splitDotsChars rest
      if c = '.' then [] :: r
      else
        match r with
        | h :: t => (c :: h) :: t
        | [] => [[c]]

/-- `namespace.split(".")` from the source (line 478), as a Lean function. -/
def splitDots (s : String) : List String :=
  (splitDotsChars s.data).map String.mk

/-- The `prototype.config.namespace` record installed on a class extended by
`Base.prototype.namespace` (lines 501-508): the fully-qualified namespace
string and a reference to the namespace container. -/
structure NsCfg where
  literal : String
  object : Nat
  deriving Repr, DecidableEq

/-- What kind of heap object this is.
`plain` objects are containers / function objects without `.extend`;
`cls` objects are Backbone-style classes: they carry `.extend`, a parent
class (`none` for the framework base classes) and, once extended by
`Base.prototype.namespace`, the `prototype.config.namespace` record. -/
inductive ObjKind where
  | plain : ObjKind
  | cls (parent : Option Nat) (nsCfg : Option NsCfg) : ObjKind
  deriving Repr, DecidableEq

/-- A JavaScript value: reference to a heap object, or a primitive. -/
inductive Val where
  | ref (a : Nat) : Val
  | num (n : Int) : Val
  | str (s : String) : Val
  | boolV (b : Bool) : Val
  deriving Repr, DecidableEq

/-- A heap object: its kind plus its own enumerable fields, in insertion
order (JavaScript for-in order for string keys). -/
structure Obj where
  kind : ObjKind
  fields : List (String × Val)
  deriving Repr, DecidableEq

/-- The single error the modelled code can signal: a native `TypeError`
(the module runs under `"use strict"`, so assigning to a property of a
primitive throws, as does calling `.extend` on `undefined` or on a value
that is not a class). -/
inductive JsErr where
  | typeError : JsErr
  deriving Repr, DecidableEq

/-- The mutable state of the module:
the heap, the next fresh address, the registrar's `registry` (line 46;
keys are fully-qualified namespace strings, values model the
`{"object": verified}` record by the address it wraps, which is all the
code ever stores there), and the event pool's subscriptions
(`$(eventPool).on(eventName, fn)` in `Base.prototype.ready`). -/
structure St where
  heap : List (Nat × Obj)
  next : Nat
  registry : List (String × Nat)
  handlers : List (String × Nat)
  deriving Repr, DecidableEq

/-- Heap well-formedness: every allocated address is below `next` (so fresh
allocations are really fresh), object field lists have no duplicate keys
(JavaScript objects cannot), and heap addresses are not duplicated. -/
def St.WF (st : St) : Prop :=
  (∀ p ∈ st.heap, p.1 < st.next ∧ (p.2.fields.map Prod.fst).Nodup) ∧
    (st.heap.map Prod.fst).Nodup

instance (st : St) : Decidable st.WF := by
  unfold St.WF; infer_instance

/-- Property read `v[k]`: defined only for references to heap objects
(primitive prototype members are not modelled, see the header). -/
def getProp (st : St) (v : Val) (k : String) : Option Val :=
  match v with
  | .ref a =>
      match alistGet st.heap a with
      | some o => alistGet o.fields k
      | none => none
  | _ => none

/-- Property write `v[k] = x`.  Under `"use strict"` an assignment to a
property of a primitive throws a `TypeError`; writes to a heap object
update (or append) the field. -/
def setProp (st : St) (v : Val) (k : String) (x : Val) : St × Except JsErr Unit :=
  match v with
  | .ref a =>
      match alistGet st.heap a with
      | some o =>
          ({ st with heap := alistSet st.heap a { o with fields := alistSet o.fields k x } },
            .ok ())
      | none => (st, .error .typeError)
  | _ => (st, .error .typeError)

/-- Allocate a fresh heap object (a `{}` literal or a class created by
`extend`), returning its address. -/
def alloc (st : St) (o : Obj) : St × Nat :=
  ({ st with heap := st.heap ++ [(st.next, o)], next := st.next + 1 }, st.next)

/-- The own enumerable fields of the object at `a` (what `for (key in ...)`
enumerates). -/
def litFields (st : St) (a : Nat) : List (String × Val) :=
  match alistGet st.heap a with
  | some o => o.fields
  | none => []

/-- The merge loop of `Base.prototype.namespace` (lines 494-496):
`for (key in literal) { verified[parts[count]][key] = literal[key]; }`.
The target `verified[parts[count]]` is re-read on every iteration, exactly
as the source does. -/
def mergeLoop (st : St) (verified : Val) (seg : String) :
    List (String × Val) → St × Except JsErr Unit
  | [] => (st, .ok ())
  | (k, x) :: rest =>
      match getProp st verified seg with
      | some tgt =>
          match setProp st tgt k x with
          | (st', .ok _) => mergeLoop st' verified seg rest
          | (st', .error e) => (st', .error e)
      | none => (st, .error .typeError)

/-- One iteration body of the walk/create loop of `Base.prototype.namespace`
(lines 486-497), before the descent: if
`typeof verified[seg] === "undefined"`, assign the literal (last segment)
or a fresh `{}` (intermediate segment); else, on the last segment, merge
the literal's fields into the existing value. -/
def nsStep (st : St) (verified : Val) (lit : Nat) (seg : String)
    (isLast : Bool) : St × Except JsErr Unit :=
  match getProp st verified seg with
  | none =>
      if isLast then
        setProp st verified seg (.ref lit)
      else
        let p := alloc st ⟨.plain, []⟩
        setProp p.1 verified seg (.ref p.2)
  | some _ =>
      if isLast then
        mergeLoop st verified seg (litFields st lit)
      else
        (st, .ok ())

/-- The walk/create loop of `Base.prototype.namespace` (lines 485-499):
run the iteration body for each segment, then descend by re-reading
`verified = verified[parts[count]]` exactly as the source does.
The returned list is a ghost trace of the values the loop variable
`verified` takes (starting value included); it does not influence the
computation. -/
def nsLoop (st : St) (verified : Val) (lit : Nat) :
    List String → St × Except JsErr (Val × List Val)
  | [] => (st, .ok (verified, [verified]))
  | seg :: rest =>
      match nsStep st verified lit seg rest.isEmpty with
      | (st₁, .error e) => (st₁, .error e)
      | (st₁, .ok _) =>
          match getProp st₁ verified seg with
          | some v' =>
              match nsLoop st₁ v' lit rest with
              | (st₂, .ok (vf, tr)) => (st₂, .ok (vf, verified :: tr))
              | (st₂, .error e) => (st₂, .error e)
          | none => (st₁, .error .typeError)

/-- The root identifier: the module is instantiated as
`new Base("bloomberg")` (line 607). -/
def rootName : String := "bloomberg"

/-- The address of the root container (`window.bloomberg`, the `Base`
instance). -/
def rootAddr : Nat := 0

/-- The fully-qualified namespace path (line 504):
`namespace ? rootObject + "." + namespace : rootObject`. -/
def fqName (path : String) : String :=
  if path = "" then rootName else rootName ++ "." ++ path

/-- The successful outcome of `Base.prototype.namespace`: the returned
container's address, the callbacks invoked by the `ready` trigger (in
firing order), and the ghost descent trace from `nsLoop`. -/
structure NsOk where
  ret : Nat
  fired : List Nat
  trace : List Val
  deriving Repr, DecidableEq

/-- `Base.prototype.namespace` (lines 474-540), the namespace registrar.

`namespaceOp st path litArg` runs the registrar on state `st`:
defaults the literal (`literal = literal || {}`), splits the path
(`namespace ? namespace.split(".") : []`), runs the walk/create/merge loop,
replaces the terminal container's `View` with
`verified.View.extend({config: {namespace: {literal: fq, object: verified}}})`
(a `TypeError` if `verified.View` is not a class, since `.extend` is then
`undefined`), records `registry[fq]`, and triggers `"ready." + fq` on the
event pool.  The final state is returned even when an error is signalled,
because a thrown `TypeError` leaves all mutations made so far in place. -/
def namespaceOp (st : St) (path : String) (litArg : Option Nat) :
    St × Except JsErr NsOk :=
  let p : St × Nat :=
    match litArg with
    | some a => (st, a)
    | none => alloc st ⟨.plain, []⟩
  let st := p.1
  let lit := p.2
  let parts : List String := if path = "" then [] else splitDots path
  match nsLoop st (.ref rootAddr) lit parts with
  | (st₁, .error e) => (st₁, .error e)
  | (st₁, .ok (verified, tr)) =>
      match verified, getProp st₁ verified "View" with
      | .ref vAddr, some (.ref cAddr) =>
          match alistGet st₁.heap cAddr with
          | some o =>
              match o.kind with
              | .cls _ _ =>
                  let q := alloc st₁ ⟨.cls (some cAddr) (some ⟨fqName path, vAddr⟩), []⟩
                  match setProp q.1 (.ref vAddr) "View" (.ref q.2) with
                  | (st₃, .ok _) =>
                      let st₄ :=
                        { st₃ with registry := alistSet st₃.registry (fqName path) vAddr }
                      let fired :=
                        (st₄.handlers.filter (fun h => h.1 = "ready." ++ fqName path)).map
                          Prod.snd
                      (st₄, .ok ⟨vAddr, fired, tr⟩)
                  | (st₃, .error e) => (st₃, .error e)
              | .plain => (st₁, .error .typeError)
          | none => (st₁, .error .typeError)
      | _, _ => (st₁, .error .typeError)

/-- `Base.prototype.ready` (lines 557-572), the readiness notifier.

If `registry` already has the path as a key, the callback is invoked
immediately (the returned list holds the invocations made during this
call); otherwise the callback is subscribed to `"ready." + path` on the
event pool and nothing fires now. -/
def ready (st : St) (path : String) (cb : Nat) : St × List Nat :=
  let eventName := "ready." ++ path
  match alistGet st.registry path with
  | some _ => (st, [cb])
  | none => ({ st with handlers := st.handlers ++ [(eventName, cb)] }, [])

/-- The state assembled by the module's IIFE before the `Base` constructor
runs `this.namespace("")`: the root instance (address 0) with its event
`pool` (address 1) and the prototype members visible on it — the base
classes `Collection`, `Config`, `Model`, `Templates`, `View`
(lines 100-439) and the function-valued members `namespace`, `ready`,
`views`.  Prototype inheritance is flattened into own fields: the claims
only ever read these members through the instance. -/
def st0 : St :=
  { heap :=
      [(0, ⟨.plain,
          [("pool", .ref 1), ("Collection", .ref 2), ("Config", .ref 3),
            ("Model", .ref 4), ("Templates", .ref 5), ("View", .ref 6),
            ("namespace", .ref 7), ("ready", .ref 8), ("views", .ref 9)]⟩),
        (1, ⟨.plain, []⟩),
        (2, ⟨.cls none none, []⟩),
        (3, ⟨.cls none none, []⟩),
        (4, ⟨.cls none none, []⟩),
        (5, ⟨.cls none none, []⟩),
        (6, ⟨.cls none none, []⟩),
        (7, ⟨.plain, []⟩),
        (8, ⟨.plain, []⟩),
        (9, ⟨.plain, []⟩)],
    next := 10,
    registry := [],
    handlers := [] }

/-- The module's initial state: the `Base` constructor (lines 28-44) ends
with `this.namespace("")` (no literal argument), which extends the root's
`View` and records `registry["bloomberg"]`. -/
def initSt : St := (namespaceOp st0 "" none).1

/-- Reading walk along a dot path from the root container: the container
reached by looking each segment up in turn (the spec's "walking `p` from
the root"). -/
def walkPath (st : St) (path : String) : Option Val :=
  (if path = "" then [] else splitDots path).foldlM (getProp st) (Val.ref rootAddr)

/-- Ghost read-only descent: the sequence of values a walk from `v` visits,
stopping at the first absent link.  Used to phrase the tree-shape
hypotheses of the theorems below (the spec's section 3 data model: the
namespace structure is a tree of distinct containers). -/
def roWalk (st : St) (v : Val) : List String → List Val
  | [] => [v]
  | seg :: rest =>
      match getProp st v seg with
      | some w => v :: roWalk st w rest
      | none => [v]

/-- The keys of a field list. -/
def keysOf (fs : List (String × Val)) : List String := fs.map Prod.fst

/-- Left fold of `alistSet` over a list of updates: the net effect of the
registrar's merge loop on the target's field list. -/
def foldlSet (acc : List (String × Val)) (fs : List (String × Val)) :
    List (String × Val) :=
  fs.foldl (fun a kv => alistSet a kv.1 kv.2) acc

/-- `WalkStepsNe st t v parts vf`: walking `parts` from `v` in `st` reaches
`vf`, and no container the walk reads a link from is the object at `t`.
Such a walk is insensitive to field writes on `t`, which is how the
theorems below carry the reading walk across the registrar's final
`View` assignment. -/
def WalkStepsNe (st : St) (t : Nat) : Val → List String → Val → Prop
  | v, [], vf => v = vf
  | v, seg :: rest, vf =>
      v ≠ .ref t ∧ ∃ w, getProp st v seg = some w ∧ WalkStepsNe st t w rest vf

/-- The facts established about a completed walk/create/merge loop run
under the spec's tree-shaped data model (section 3): `st` is the state the
loop started in, `st₁` the state it finished in, `tA` the address of the
terminal container (`verified` at loop exit), `lit` the literal's address,
`lo` the literal's object at call time. -/
structure CleanRun (st : St) (v : Val) (parts : List String) (lit : Nat)
    (lo : Obj) (st₁ : St) (tA : Nat) : Prop where
  /-- The finished walk reads back to the terminal, never through it. -/
  wsne : WalkStepsNe st₁ tA v parts (.ref tA)
  /-- Every key of the literal is on the terminal with the literal's
  value. -/
  keysNew : ∀ k, k ∈ keysOf lo.fields →
    getProp st₁ (.ref tA) k = alistGet lo.fields k
  /-- Keys not in the literal are as they were before the call. -/
  keysOld : ∀ k, k ∉ keysOf lo.fields →
    getProp st₁ (.ref tA) k = getProp st (.ref tA) k
  /-- The terminal's key set is the old key set united with the
  literal's. -/
  keysIff : ∀ k, (getProp st₁ (.ref tA) k).isSome ↔
    ((getProp st (.ref tA) k).isSome ∨ k ∈ keysOf lo.fields)
  /-- The terminal is the literal itself or the last existing container. -/
  retLast : tA = lit ∨ Val.ref tA = (roWalk st v parts).getLastD v
  /-- If the pre-walk did not reach the end, the literal was assigned. -/
  retAssign : (roWalk st v parts).length ≤ parts.length → tA = lit
  /-- Only the last pre-existing container on the walk is modified; all
  other previously allocated objects are untouched. -/
  frame : ∃ wa, (roWalk st v parts).getLastD v = .ref wa ∧
    ∀ b, b < st.next → b ≠ wa → alistGet st₁.heap b = alistGet st.heap b

/-! ### Concrete states used by the witnesses and counterexamples

All of them extend `initSt` (whose `next` is 12) with explicit literal
objects, mirroring a page script that builds an object literal and passes
it to `bloomberg.namespace`. -/

/-- `initSt` plus an empty literal `{}` at address 12. -/
def stEmptyLit : St :=
  { initSt with heap := initSt.heap ++ [(12, ⟨.plain, []⟩)], next := 13 }

/-- `initSt` plus the literal `{View: bloomberg.View, total: 0}` at 12. -/
def stViewLit : St :=
  { initSt with
    heap := initSt.heap ++ [(12, ⟨.plain, [("View", .ref 6), ("total", .num 0)]⟩)],
    next := 13 }

/-- `initSt` plus `{foo: 1, View: bloomberg.View}` at 12. -/
def stFooLit : St :=
  { initSt with
    heap := initSt.heap ++ [(12, ⟨.plain, [("foo", .num 1), ("View", .ref 6)]⟩)],
    next := 13 }

/-- `stViewLit` plus the second literal `{currency: "USD"}` at 13
(the spec's own aligned example: `{total: 0}` then `{currency: "USD"}`). -/
def stTwoLits : St :=
  { stViewLit with
    heap := stViewLit.heap ++ [(13, ⟨.plain, [("currency", .str "USD")]⟩)],
    next := 14 }

/-- `stViewLit` plus a second literal `{View: bloomberg.View}` at 13,
overlapping the first on the `View` key. -/
def stOverlapLits : St :=
  { stViewLit with
    heap := stViewLit.heap ++ [(13, ⟨.plain, [("View", .ref 6)]⟩)], next := 14 }

/-- `initSt` plus `{View: bloomberg.View, k: 7}` at 12, used for
multi-segment registrations. -/
def stDeepLit : St :=
  { initSt with
    heap := initSt.heap ++ [(12, ⟨.plain, [("View", .ref 6), ("k", .num 7)]⟩)],
    next := 13 }

/-- `initSt` plus two literals with disjoint key sets:
`{View: bloomberg.View}` at 12 and `{total: 0}` at 13. -/
def stDisjLits : St :=
  { initSt with
    heap := initSt.heap ++
      [(12, ⟨.plain, [("View", .ref 6)]⟩), (13, ⟨.plain, [("total", .num 0)]⟩)],
    next := 14 }

/-- The state after the first of two registrations with disjoint key sets:
`bloomberg.namespace("a", {View: bloomberg.View})` run on `stDisjLits`. -/
def stDisj1 : St := (namespaceOp stDisjLits "a" (some 12)).1

/-- The state after the first of two registrations with overlapping keys:
`bloomberg.namespace("a", {View: bloomberg.View, total: 0})` run on
`stOverlapLits`. -/
def stOverlap1 : St := (namespaceOp stOverlapLits "a" (some 12)).1

/-! ### Association-list lemmas -/

theorem alistGet_set_self {κ α : Type} [DecidableEq κ] (l : List (κ × α))
    (k : κ) (x : α) : alistGet (alistSet l k x) k = some x := by
  induction l with
  | nil => simp [alistGet, alistSet]
  | cons p t ih =>
      obtain ⟨k', v'⟩ := p
      by_cases h : k' = k
      · subst h; simp [alistGet, alistSet]
      · simp [alistGet, alistSet, h, ih]

theorem alistGet_set_ne {κ α : Type} [DecidableEq κ] (l : List (κ × α))
    (k q : κ) (x : α) (h : q ≠ k) :
    alistGet (alistSet l k x) q = alistGet l q := by
  have hkq : ¬(k = q) := fun hh => h hh.symm
  induction l with
  | nil => simp [alistGet, alistSet, hkq]
  | cons p t ih =>
      obtain ⟨k', v'⟩ := p
      by_cases hk : k' = k
      · subst hk
        simp [alistGet, alistSet, hkq]
      · by_cases hq : k' = q <;> simp [alistGet, alistSet, h, hk, hq, ih]

theorem alistSet_set_same {κ α : Type} [DecidableEq κ] (l : List (κ × α))
    (k : κ) (x y : α) : alistSet (alistSet l k x) k y = alistSet l k y := by
  induction l with
  | nil => simp [alistSet]
  | cons p t ih =>
      obtain ⟨k', v'⟩ := p
      by_cases hk : k' = k
      · subst hk; simp [alistSet]
      · simp [alistSet, hk, ih]

theorem alistSet_self {κ α : Type} [DecidableEq κ] (l : List (κ × α))
    (k : κ) (v : α) (h : alistGet l k = some v) : alistSet l k v = l := by
  induction l with
  | nil => simp [alistGet] at h
  | cons p t ih =>
      obtain ⟨k', v'⟩ := p
      by_cases hk : k' = k
      · subst hk
        simp [alistGet] at h
        simp [alistSet, h]
      · simp [alistGet, hk] at h
        simp [alistSet, hk, ih h]

theorem alistGet_append {κ α : Type} [DecidableEq κ] (l m : List (κ × α))
    (k : κ) :
    alistGet (l ++ m) k =
      match alistGet l k with
      | some v => some v
      | none => alistGet m k := by
  induction l with
  | nil => simp [alistGet]
  | cons p t ih =>
      obtain ⟨k', v'⟩ := p
      by_cases hk : k' = k <;> simp [alistGet, hk, ih]

theorem alistGet_append_left {κ α : Type} [DecidableEq κ] {l : List (κ × α)}
    (m : List (κ × α)) {k : κ} {v : α} (h : alistGet l k = some v) :
    alistGet (l ++ m) k = some v := by
  rw [alistGet_append, h]

theorem alistGet_append_right {κ α : Type} [DecidableEq κ] {l : List (κ × α)}
    (m : List (κ × α)) {k : κ} (h : alistGet l k = none) :
    alistGet (l ++ m) k = alistGet m k := by
  rw [alistGet_append, h]

theorem alistSet_of_get_none {κ α : Type} [DecidableEq κ] {l : List (κ × α)}
    {k : κ} (x : α) (h : alistGet l k = none) :
    alistSet l k x = l ++ [(k, x)] := by
  induction l with
  | nil => simp [alistSet]
  | cons p t ih =>
      obtain ⟨k', v'⟩ := p
      by_cases hk : k' = k
      · subst hk; simp [alistGet] at h
      · simp [alistGet, hk] at h
        simp [alistSet, hk, ih h]

theorem alistGet_isSome_iff_mem {κ α : Type} [DecidableEq κ]
    (l : List (κ × α)) (k : κ) :
    (alistGet l k).isSome ↔ k ∈ l.map Prod.fst := by
  induction l with
  | nil => simp [alistGet]
  | cons p t ih =>
      obtain ⟨k', v'⟩ := p
      by_cases hk : k' = k
      · subst hk; simp [alistGet]
      · rw [show alistGet ((k', v') :: t) k = alistGet t k by simp [alistGet, hk]]
        simp only [List.map_cons, List.mem_cons]
        rw [ih]
        constructor
        · exact Or.inr
        · rintro (h | h)
          · exact absurd h.symm hk
          · exact h

theorem alistGet_eq_none_iff_not_mem {κ α : Type} [DecidableEq κ]
    (l : List (κ × α)) (k : κ) :
    alistGet l k = none ↔ k ∉ l.map Prod.fst := by
  rw [← alistGet_isSome_iff_mem]
  cases alistGet l k <;> simp

theorem alistSet_keys_of_mem {κ α : Type} [DecidableEq κ] {l : List (κ × α)}
    {k : κ} (x : α) (h : k ∈ l.map Prod.fst) :
    (alistSet l k x).map Prod.fst = l.map Prod.fst := by
  induction l with
  | nil => simp at h
  | cons p t ih =>
      obtain ⟨k', v'⟩ := p
      by_cases hk : k' = k
      · subst hk; simp [alistSet]
      · simp only [List.map_cons, List.mem_cons] at h
        rcases h with h | h
        · exact absurd h.symm hk
        · simp [alistSet, hk, ih h]

theorem alistSet_keys_mem {κ α : Type} [DecidableEq κ] (l : List (κ × α))
    (k q : κ) (x : α) :
    q ∈ (alistSet l k x).map Prod.fst ↔ q = k ∨ q ∈ l.map Prod.fst := by
  induction l with
  | nil => simp [alistSet]
  | cons p t ih =>
      obtain ⟨k', v'⟩ := p
      by_cases hk : k' = k
      · subst hk
        rw [show alistSet ((k', v') :: t) k' x = (k', x) :: t by simp [alistSet]]
        simp only [List.map_cons, List.mem_cons]
        tauto
      · rw [show alistSet ((k', v') :: t) k x = (k', v') :: alistSet t k x by
          simp [alistSet, hk]]
        simp only [List.map_cons, List.mem_cons, ih]
        tauto

theorem alistSet_keys_nodup {κ α : Type} [DecidableEq κ] {l : List (κ × α)}
    (k : κ) (x : α) (h : (l.map Prod.fst).Nodup) :
    ((alistSet l k x).map Prod.fst).Nodup := by
  by_cases hm : k ∈ l.map Prod.fst
  · rw [alistSet_keys_of_mem x hm]; exact h
  · rw [alistSet_of_get_none x ((alistGet_eq_none_iff_not_mem l k).mpr hm)]
    simp only [List.map_append, List.map_cons, List.map_nil]
    rw [List.nodup_append]
    refine ⟨h, List.nodup_singleton _, ?_⟩
    intro a ha hb
    simp only [List.mem_singleton] at hb
    subst hb
    exact hm ha

/-! ### `foldlSet` lemmas -/

theorem foldlSet_nil (acc : List (String × Val)) : foldlSet acc [] = acc := rfl

theorem foldlSet_cons (acc : List (String × Val)) (k : String) (x : Val)
    (fs : List (String × Val)) :
    foldlSet acc ((k, x) :: fs) = foldlSet (alistSet acc k x) fs := rfl

theorem foldlSet_get_of_not_mem (fs : List (String × Val))
    (acc : List (String × Val)) (k : String) (h : k ∉ keysOf fs) :
    alistGet (foldlSet acc fs) k = alistGet acc k := by
  induction fs generalizing acc with
  | nil => rfl
  | cons p t ih =>
      obtain ⟨k', x'⟩ := p
      simp only [keysOf, List.map_cons, List.mem_cons] at h
      push_neg at h
      rw [foldlSet_cons, ih _ (by simpa [keysOf] using h.2),
        alistGet_set_ne _ _ _ _ h.1]

theorem foldlSet_get_of_get (fs : List (String × Val))
    (acc : List (String × Val)) (k : String) (x : Val)
    (hnd : (keysOf fs).Nodup) (h : alistGet fs k = some x) :
    alistGet (foldlSet acc fs) k = some x := by
  induction fs generalizing acc with
  | nil => simp [alistGet] at h
  | cons p t ih =>
      obtain ⟨k', x'⟩ := p
      simp only [keysOf, List.map_cons, List.nodup_cons] at hnd
      by_cases hk : k' = k
      · subst hk
        simp [alistGet] at h
        subst h
        rw [foldlSet_cons,
          foldlSet_get_of_not_mem _ _ _ (by simpa [keysOf] using hnd.1),
          alistGet_set_self]
      · simp [alistGet, hk] at h
        rw [foldlSet_cons, ih _ hnd.2 h]

theorem foldlSet_keys_mem (fs : List (String × Val))
    (acc : List (String × Val)) (k : String) :
    k ∈ keysOf (foldlSet acc fs) ↔ k ∈ keysOf acc ∨ k ∈ keysOf fs := by
  induction fs generalizing acc with
  | nil => simp [foldlSet_nil, keysOf]
  | cons p t ih =>
      obtain ⟨k', x'⟩ := p
      rw [foldlSet_cons, ih]
      simp only [keysOf, List.map_cons, List.mem_cons]
      rw [show (alistSet acc k' x').map Prod.fst = keysOf (alistSet acc k' x')
        from rfl]
      constructor
      · rintro (h | h)
        · rcases (alistSet_keys_mem acc k' k x').mp h with h | h
          · exact Or.inr (Or.inl h)
          · exact Or.inl h
        · exact Or.inr (Or.inr h)
      · rintro (h | h | h)
        · exact Or.inl ((alistSet_keys_mem acc k' k x').mpr (Or.inr h))
        · exact Or.inl ((alistSet_keys_mem acc k' k x').mpr (Or.inl h))
        · exact Or.inr h

theorem alistGet_mem {κ α : Type} [DecidableEq κ] {l : List (κ × α)} {k : κ}
    {v : α} (h : alistGet l k = some v) : (k, v) ∈ l := by
  induction l with
  | nil => simp [alistGet] at h
  | cons p t ih =>
      obtain ⟨k', v'⟩ := p
      by_cases hk : k' = k
      · subst hk
        have hv : v' = v := by simpa [alistGet] using h
        subst hv
        exact List.mem_cons_self _ _
      · simp only [alistGet, if_neg hk] at h
        exact List.mem_cons_of_mem _ (ih h)

theorem alistSet_mem {κ α : Type} [DecidableEq κ] {l : List (κ × α)}
    {k : κ} {x : α} {p : κ × α} (h : p ∈ alistSet l k x) :
    p ∈ l ∨ p = (k, x) := by
  induction l with
  | nil => simpa [alistSet] using h
  | cons q t ih =>
      obtain ⟨k', v'⟩ := q
      by_cases hk : k' = k
      · subst hk
        rw [show alistSet ((k', v') :: t) k' x = (k', x) :: t by simp [alistSet]]
          at h
        rcases List.mem_cons.mp h with h | h
        · exact Or.inr h
        · exact Or.inl (List.mem_cons_of_mem _ h)
      · rw [show alistSet ((k', v') :: t) k x = (k', v') :: alistSet t k x by
          simp [alistSet, hk]] at h
        rcases List.mem_cons.mp h with h | h
        · exact Or.inl (h ▸ List.mem_cons_self _ _)
        · rcases ih h with h | h
          · exact Or.inl (List.mem_cons_of_mem _ h)
          · exact Or.inr h

/-! ### Basic facts about the heap operations -/

theorem getProp_of_obj {st : St} {a : Nat} {o : Obj}
    (h : alistGet st.heap a = some o) (k : String) :
    getProp st (.ref a) k = alistGet o.fields k := by
  simp [getProp, h]

theorem setProp_eq {st : St} {a : Nat} {o : Obj}
    (h : alistGet st.heap a = some o) (k : String) (x : Val) :
    setProp st (.ref a) k x =
      ({ st with heap := alistSet st.heap a ⟨o.kind, alistSet o.fields k x⟩ },
        .ok ()) := by
  simp [setProp, h]

theorem setProp_registry (st : St) (v : Val) (k : String) (x : Val) :
    (setProp st v k x).1.registry = st.registry := by
  cases v <;> simp only [setProp] <;> try rfl
  cases alistGet st.heap _ <;> rfl

theorem setProp_handlers (st : St) (v : Val) (k : String) (x : Val) :
    (setProp st v k x).1.handlers = st.handlers := by
  cases v <;> simp only [setProp] <;> try rfl
  cases alistGet st.heap _ <;> rfl

theorem setProp_next (st : St) (v : Val) (k : String) (x : Val) :
    (setProp st v k x).1.next = st.next := by
  cases v <;> simp only [setProp] <;> try rfl
  cases alistGet st.heap _ <;> rfl

theorem setProp_heap_get_ne {st : St} {a : Nat} {o : Obj}
    (h : alistGet st.heap a = some o) (k : String) (x : Val) {b : Nat}
    (hb : b ≠ a) :
    alistGet (setProp st (.ref a) k x).1.heap b = alistGet st.heap b := by
  rw [setProp_eq h]
  exact alistGet_set_ne _ _ _ _ hb

theorem setProp_heap_get_self {st : St} {a : Nat} {o : Obj}
    (h : alistGet st.heap a = some o) (k : String) (x : Val) :
    alistGet (setProp st (.ref a) k x).1.heap a =
      some ⟨o.kind, alistSet o.fields k x⟩ := by
  rw [setProp_eq h]
  exact alistGet_set_self _ _ _

theorem WF_get_lt {st : St} (hwf : st.WF) {a : Nat} {o : Obj}
    (h : alistGet st.heap a = some o) : a < st.next :=
  (hwf.1 _ (alistGet_mem h)).1

theorem WF_get_nodup {st : St} (hwf : st.WF) {a : Nat} {o : Obj}
    (h : alistGet st.heap a = some o) : (o.fields.map Prod.fst).Nodup :=
  (hwf.1 _ (alistGet_mem h)).2

theorem setProp_WF {st : St} (hwf : st.WF) (v : Val) (k : String) (x : Val) :
    (setProp st v k x).1.WF := by
  match v with
  | .num n => exact hwf
  | .str s => exact hwf
  | .boolV b => exact hwf
  | .ref a =>
      cases hget : alistGet st.heap a with
      | none => simpa [setProp, hget] using hwf
      | some o =>
          rw [setProp_eq hget]
          constructor
          · intro p hp
            rcases alistSet_mem hp with hp | hp
            · exact ⟨(hwf.1 _ hp).1, (hwf.1 _ hp).2⟩
            · subst hp
              exact ⟨WF_get_lt hwf hget,
                alistSet_keys_nodup _ _ (WF_get_nodup hwf hget)⟩
          · rw [alistSet_keys_of_mem _
              ((alistGet_isSome_iff_mem st.heap a).mp (by simp [hget]))]
            exact hwf.2

theorem alloc_next (st : St) (o : Obj) : (alloc st o).1.next = st.next + 1 :=
  rfl

theorem alloc_registry (st : St) (o : Obj) :
    (alloc st o).1.registry = st.registry := rfl

theorem alloc_handlers (st : St) (o : Obj) :
    (alloc st o).1.handlers = st.handlers := rfl

theorem alloc_heap_get_lt {st : St} (o : Obj) {b : Nat} (hb : b ≠ st.next) :
    alistGet (alloc st o).1.heap b = alistGet st.heap b := by
  show alistGet (st.heap ++ [(st.next, o)]) b = alistGet st.heap b
  rw [alistGet_append]
  cases hg : alistGet st.heap b with
  | some v => rfl
  | none =>
      have : ¬(st.next = b) := fun hh => hb hh.symm
      simp [alistGet, this]

theorem alloc_heap_get_self {st : St} (hwf : st.WF) (o : Obj) :
    alistGet (alloc st o).1.heap st.next = some o := by
  show alistGet (st.heap ++ [(st.next, o)]) st.next = some o
  have hnone : alistGet st.heap st.next = none := by
    rw [alistGet_eq_none_iff_not_mem]
    intro hmem
    rcases List.mem_map.mp hmem with ⟨p, hp, hfst⟩
    exact absurd (hfst ▸ (hwf.1 _ hp).1) (lt_irrefl _)
  rw [alistGet_append_right _ hnone]
  simp [alistGet]

theorem alloc_WF {st : St} (hwf : st.WF) {o : Obj}
    (ho : (o.fields.map Prod.fst).Nodup) : (alloc st o).1.WF := by
  constructor
  · intro p hp
    rcases List.mem_append.mp hp with hp | hp
    · exact ⟨Nat.lt_succ_of_lt (hwf.1 _ hp).1, (hwf.1 _ hp).2⟩
    · simp only [List.mem_singleton] at hp
      subst hp
      exact ⟨Nat.lt_succ_self _, ho⟩
  · show ((st.heap ++ [(st.next, o)]).map Prod.fst).Nodup
    rw [List.map_append, List.nodup_append]
    refine ⟨hwf.2, by simp, ?_⟩
    intro a ha hb
    simp only [List.map_cons, List.map_nil, List.mem_singleton] at hb
    subst hb
    rcases List.mem_map.mp ha with ⟨p, hp, hfst⟩
    exact absurd (hfst ▸ (hwf.1 _ hp).1) (lt_irrefl _)

/-! ### Frame and well-formedness lemmas for the registrar's loops -/

theorem mergeLoop_frame :
    ∀ (fs : List (String × Val)) (st : St) (v : Val) (seg : String),
      (mergeLoop st v seg fs).1.registry = st.registry ∧
        (mergeLoop st v seg fs).1.handlers = st.handlers ∧
        (mergeLoop st v seg fs).1.next = st.next := by
  intro fs
  induction fs with
  | nil => intro st v seg; exact ⟨rfl, rfl, rfl⟩
  | cons p t ih =>
      intro st v seg
      obtain ⟨k, x⟩ := p
      cases hg : getProp st v seg with
      | none => simp [mergeLoop, hg]
      | some tgt =>
          have hreg := setProp_registry st tgt k x
          have hhan := setProp_handlers st tgt k x
          have hnx := setProp_next st tgt k x
          rcases hsp : setProp st tgt k x with ⟨st', r⟩
          rw [hsp] at hreg hhan hnx
          cases r with
          | ok u =>
              rcases ih st' v seg with ⟨h1, h2, h3⟩
              simp only [mergeLoop, hg, hsp]
              exact ⟨h1.trans hreg, h2.trans hhan, h3.trans hnx⟩
          | error e =>
              simp only [mergeLoop, hg, hsp]
              exact ⟨hreg, hhan, hnx⟩

theorem mergeLoop_WF :
    ∀ (fs : List (String × Val)) (st : St) (v : Val) (seg : String),
      st.WF → (mergeLoop st v seg fs).1.WF := by
  intro fs
  induction fs with
  | nil => intro st v seg hwf; exact hwf
  | cons p t ih =>
      intro st v seg hwf
      obtain ⟨k, x⟩ := p
      cases hg : getProp st v seg with
      | none => simpa [mergeLoop, hg] using hwf
      | some tgt =>
          have hwf' := setProp_WF hwf tgt k x
          rcases hsp : setProp st tgt k x with ⟨st', r⟩
          rw [hsp] at hwf'
          cases r with
          | ok u =>
              simp only [mergeLoop, hg, hsp]
              exact ih st' v seg hwf'
          | error e =>
              simp only [mergeLoop, hg, hsp]
              exact hwf'

theorem nsStep_frame (st : St) (v : Val) (lit : Nat) (seg : String)
    (isLast : Bool) :
    (nsStep st v lit seg isLast).1.registry = st.registry ∧
      (nsStep st v lit seg isLast).1.handlers = st.handlers ∧
      st.next ≤ (nsStep st v lit seg isLast).1.next := by
  cases hg : getProp st v seg with
  | none =>
      cases isLast with
      | true =>
          simp only [nsStep, hg, if_pos]
          exact ⟨setProp_registry .., setProp_handlers ..,
            le_of_eq (setProp_next ..).symm⟩
      | false =>
          simp only [nsStep, hg, Bool.false_eq_true, if_neg, not_false_iff]
          refine ⟨(setProp_registry ..).trans (alloc_registry ..),
            (setProp_handlers ..).trans (alloc_handlers ..), ?_⟩
          rw [setProp_next, alloc_next]
          exact Nat.le_succ _
  | some w =>
      cases isLast with
      | true =>
          simp only [nsStep, hg, if_pos]
          rcases mergeLoop_frame (litFields st lit) st v seg with ⟨h1, h2, h3⟩
          exact ⟨h1, h2, le_of_eq h3.symm⟩
      | false => simp [nsStep, hg]

theorem nsStep_WF {st : St} (hwf : st.WF) (v : Val) (lit : Nat) (seg : String)
    (isLast : Bool) : (nsStep st v lit seg isLast).1.WF := by
  cases hg : getProp st v seg with
  | none =>
      cases isLast with
      | true =>
          simp only [nsStep, hg, if_pos]
          exact setProp_WF hwf ..
      | false =>
          simp only [nsStep, hg, Bool.false_eq_true, if_neg, not_false_iff]
          exact setProp_WF (alloc_WF hwf (by simp)) ..
  | some w =>
      cases isLast with
      | true =>
          simp only [nsStep, hg, if_pos]
          exact mergeLoop_WF _ _ _ _ hwf
      | false =>
          simp only [nsStep, hg, Bool.false_eq_true, if_neg, not_false_iff]
          exact hwf

theorem nsLoop_frame :
    ∀ (parts : List String) (st : St) (v : Val) (lit : Nat),
      (nsLoop st v lit parts).1.registry = st.registry ∧
        (nsLoop st v lit parts).1.handlers = st.handlers ∧
        st.next ≤ (nsLoop st v lit parts).1.next := by
  intro parts
  induction parts with
  | nil => intro st v lit; exact ⟨rfl, rfl, le_refl _⟩
  | cons seg rest ih =>
      intro st v lit
      obtain ⟨h1, h2, h3⟩ := nsStep_frame st v lit seg rest.isEmpty
      rcases hstep : nsStep st v lit seg rest.isEmpty with ⟨st₁, r⟩
      rw [hstep] at h1 h2 h3
      cases r with
      | error e => simp only [nsLoop, hstep]; exact ⟨h1, h2, h3⟩
      | ok u =>
          cases hg : getProp st₁ v seg with
          | none =>
              simp only [nsLoop, hstep, hg]
              exact ⟨h1, h2, h3⟩
          | some v' =>
              rcases ih st₁ v' lit with ⟨g1, g2, g3⟩
              rcases hrec : nsLoop st₁ v' lit rest with ⟨st₂, rr⟩
              rw [hrec] at g1 g2 g3
              cases rr with
              | ok pr =>
                  obtain ⟨vf, tr⟩ := pr
                  simp only [nsLoop, hstep, hg, hrec]
                  exact ⟨g1.trans h1, g2.trans h2, le_trans h3 g3⟩
              | error e =>
                  simp only [nsLoop, hstep, hg, hrec]
                  exact ⟨g1.trans h1, g2.trans h2, le_trans h3 g3⟩

theorem nsLoop_WF :
    ∀ (parts : List String) (st : St) (v : Val) (lit : Nat),
      st.WF → (nsLoop st v lit parts).1.WF := by
  intro parts
  induction parts with
  | nil => intro st v lit hwf; exact hwf
  | cons seg rest ih =>
      intro st v lit hwf
      have hwf₁ := nsStep_WF hwf v lit seg rest.isEmpty
      rcases hstep : nsStep st v lit seg rest.isEmpty with ⟨st₁, r⟩
      rw [hstep] at hwf₁
      cases r with
      | error e => simp only [nsLoop, hstep]; exact hwf₁
      | ok u =>
          cases hg : getProp st₁ v seg with
          | none => simp only [nsLoop, hstep, hg]; exact hwf₁
          | some v' =>
              have hwf₂ := ih st₁ v' lit hwf₁
              rcases hrec : nsLoop st₁ v' lit rest with ⟨st₂, rr⟩
              rw [hrec] at hwf₂
              cases rr with
              | ok pr =>
                  obtain ⟨vf, tr⟩ := pr
                  simp only [nsLoop, hstep, hg, hrec]
                  exact hwf₂
              | error e =>
                  simp only [nsLoop, hstep, hg, hrec]
                  exact hwf₂

/-! ### Unfolding the registrar around a finished walk -/

theorem getProp_some_obj {st : St} {a : Nat} {k : String} {w : Val}
    (h : getProp st (.ref a) k = some w) :
    ∃ o, alistGet st.heap a = some o ∧ alistGet o.fields k = some w := by
  cases hg : alistGet st.heap a with
  | none => rw [getProp, hg] at h; cases h
  | some o => rw [getProp, hg] at h; exact ⟨o, rfl, h⟩

/-- When the walk loop finishes on a container whose `View` is a class,
`Base.prototype.namespace` performs the `View` extension, records the
registry entry and fires the readiness event; this equation spells out the
resulting state. -/
theorem namespaceOp_ok_eq (st : St) (path : String) (lit : Nat) (st₁ : St)
    (vA cA : Nat) (tr : List Val) (o oT : Obj) (pp : Option Nat)
    (cc : Option NsCfg)
    (hns : nsLoop st (.ref rootAddr) lit
        (if path = "" then [] else splitDots path) = (st₁, .ok (.ref vA, tr)))
    (hview : getProp st₁ (.ref vA) "View" = some (.ref cA))
    (hcls : alistGet st₁.heap cA = some o)
    (hkind : o.kind = .cls pp cc)
    (hT : alistGet st₁.heap vA = some oT) :
    namespaceOp st path (some lit) =
      ({ heap :=
            alistSet
              (st₁.heap ++
                [(st₁.next,
                  ⟨.cls (some cA) (some ⟨fqName path, vA⟩), []⟩)])
              vA ⟨oT.kind, alistSet oT.fields "View" (.ref st₁.next)⟩,
          next := st₁.next + 1,
          registry := alistSet st₁.registry (fqName path) vA,
          handlers := st₁.handlers },
        .ok ⟨vA,
          (st₁.handlers.filter
            (fun h => h.1 = "ready." ++ fqName path)).map Prod.snd, tr⟩) := by
  have hTA :
      alistGet
        (st₁.heap ++
          [(st₁.next,
            (⟨.cls (some cA) (some ⟨fqName path, vA⟩), []⟩ : Obj))]) vA =
        some oT := alistGet_append_left _ hT
  simp only [namespaceOp, hns, hview, hcls, hkind, alloc, setProp, hTA]

/-- If the walk loop finishes but the terminal's `View` is absent,
`verified.View.extend` is `undefined.extend`: a `TypeError`, signalled with
the post-walk state. -/
theorem namespaceOp_err_of_no_view (st : St) (path : String) (lit : Nat)
    (st₁ : St) (vf : Val) (tr : List Val)
    (hns : nsLoop st (.ref rootAddr) lit
        (if path = "" then [] else splitDots path) = (st₁, .ok (vf, tr)))
    (hview : getProp st₁ vf "View" = none) :
    namespaceOp st path (some lit) = (st₁, .error .typeError) := by
  cases vf with
  | ref a => simp [namespaceOp, hns, hview]
  | num n => simp [namespaceOp, hns, hview]
  | str s => simp [namespaceOp, hns, hview]
  | boolV b => simp [namespaceOp, hns, hview]

/-- Whatever the path and literal, a successful `Base.prototype.namespace`
call leaves the event pool's subscriptions unchanged and fires exactly the
callbacks that were subscribed (at call time) to `"ready." + fq`. -/
theorem namespaceOp_fired (st : St) (path : String) (litArg : Option Nat)
    (st' : St) (r : NsOk)
    (h : namespaceOp st path litArg = (st', .ok r)) :
    r.fired =
      (st.handlers.filter
        (fun hd => hd.1 = "ready." ++ fqName path)).map Prod.snd ∧
      st'.handlers = st.handlers := by
  rcases hp : (match litArg with
      | some a => (st, a)
      | none => alloc st ⟨.plain, []⟩) with ⟨stL, lit⟩
  have hLhan : stL.handlers = st.handlers := by
    cases litArg with
    | some a => cases hp; rfl
    | none => cases hp; rfl
  rw [namespaceOp.eq_def, hp] at h
  dsimp only at h
  have hloopframe :=
    nsLoop_frame (if path = "" then [] else splitDots path) stL (.ref rootAddr)
      lit
  rcases hns : nsLoop stL (.ref rootAddr) lit
      (if path = "" then [] else splitDots path) with ⟨st₁, rr⟩
  rw [hns] at h hloopframe
  cases rr with
  | error e => cases h
  | ok pr =>
      obtain ⟨vf, tr⟩ := pr
      cases vf with
      | num n => cases h
      | str s => cases h
      | boolV b => cases h
      | ref vA =>
          dsimp only at h
          cases hview : getProp st₁ (.ref vA) "View" with
          | none => rw [hview] at h; cases h
          | some w =>
              rw [hview] at h
              cases w with
              | num n => cases h
              | str s => cases h
              | boolV b => cases h
              | ref cA =>
                  dsimp only at h
                  cases hcls : alistGet st₁.heap cA with
                  | none => rw [hcls] at h; cases h
                  | some o =>
                      rw [hcls] at h
                      dsimp only at h
                      cases hkind : o.kind with
                      | plain => rw [hkind] at h; cases h
                      | cls pp cc =>
                          rw [hkind] at h
                          dsimp only at h
                          rcases hsp : setProp (alloc st₁
                              ⟨.cls (some cA)
                                (some ⟨fqName path, vA⟩), []⟩).1
                              (.ref vA) "View"
                              (.ref (alloc st₁
                                ⟨.cls (some cA)
                                  (some ⟨fqName path, vA⟩), []⟩).2) with
                            ⟨st₃, r3⟩
                          have h3han : st₃.handlers = st₁.handlers := by
                            have := setProp_handlers (alloc st₁
                                ⟨.cls (some cA)
                                  (some ⟨fqName path, vA⟩), []⟩).1
                                (.ref vA) "View"
                                (.ref (alloc st₁
                                  ⟨.cls (some cA)
                                    (some ⟨fqName path, vA⟩), []⟩).2)
                            rw [hsp] at this
                            exact this.trans (alloc_handlers ..)
                          rw [hsp] at h
                          cases r3 with
                          | error e => cases h
                          | ok u =>
                              have h1 : st' =
                                  { st₃ with registry :=
                                      alistSet st₃.registry (fqName path) vA } ∧
                                  r = ⟨vA,
                                    (st₃.handlers.filter
                                      (fun hd =>
                                        hd.1 = "ready." ++ fqName path)).map
                                      Prod.snd, tr⟩ := by
                                have := h
                                simp only [Prod.mk.injEq] at this
                                rcases this with ⟨h1, h2⟩
                                constructor
                                · exact h1.symm
                                · cases h2; rfl
                              rcases h1 with ⟨hst', hr⟩
                              subst hst'
                              subst hr
                              refine ⟨?_, ?_⟩
                              · rw [h3han, hloopframe.2.1, hLhan]
                              · show st₃.handlers = st.handlers
                                rw [h3han, hloopframe.2.1, hLhan]

theorem WF_next_none {st : St} (hwf : st.WF) :
    alistGet st.heap st.next = none := by
  rw [alistGet_eq_none_iff_not_mem]
  intro hmem
  rcases List.mem_map.mp hmem with ⟨p, hp, hfst⟩
  exact absurd (hfst ▸ (hwf.1 _ hp).1) (lt_irrefl _)

/-! ### Claim C4 -/

/-- C4: if `onReady(p, cb)` (`Base.prototype.ready`) is called when `p` is
a key of the registry (as it is after a `register` call recorded `p`), then
`cb` is invoked synchronously, exactly once, within the `onReady` call
itself (the returned invocation list is exactly `[cb]`), and the state is
left unchanged (in particular no subscription is added, so the callback
cannot fire again on later triggers). -/
theorem c4_ready_after_registration (st : St) (path : String) (cb : Nat)
    (a : Nat) (hreg : alistGet st.registry path = some a) :
    ready st path cb = (st, [cb]) := by
  simp [ready, hreg]

/-- C4 witness: in the module's initial state the constructor has recorded
`registry["bloomberg"]`, so `onReady("bloomberg", cb)` fires `cb` at once. -/
theorem c4_witness :
    alistGet initSt.registry "bloomberg" = some 0 ∧
      ready initSt "bloomberg" 5 = (initSt, [5]) :=
  ⟨by decide, c4_ready_after_registration initSt "bloomberg" 5 0 (by decide)⟩

/-! ### Claim C2 -/

/-- C2 counterexample: `register("a", {})` raises a `TypeError`.  The walk
assigns the empty literal as the terminal container, and then
`verified.View.extend` is `undefined.extend`.  This refutes the claim that
no input causes a raised error. -/
theorem c2_counterexample :
    (namespaceOp stEmptyLit "a" (some 12)).2 = .error .typeError := by decide

/-- C2 amended: `register` runs to completion and returns the terminal
container provided the container the walk finishes on has a `View` member
holding a class (so that `.extend` exists); otherwise a `TypeError` is
raised at the `View`-extension step.  `onReady` (modelled by `ready`) is a
total function, so it never signals failure. -/
theorem c2_register_ok_given_view_class (st : St) (path : String)
    (lit : Nat) (st₁ : St) (vA cA : Nat) (tr : List Val) (o : Obj)
    (pp : Option Nat) (cc : Option NsCfg)
    (hns : nsLoop st (.ref rootAddr) lit
        (if path = "" then [] else splitDots path) = (st₁, .ok (.ref vA, tr)))
    (hview : getProp st₁ (.ref vA) "View" = some (.ref cA))
    (hcls : alistGet st₁.heap cA = some o)
    (hkind : o.kind = .cls pp cc) :
    ∃ st' fired, namespaceOp st path (some lit) = (st', .ok ⟨vA, fired, tr⟩) := by
  rcases getProp_some_obj hview with ⟨oT, hT, hTf⟩
  exact ⟨_, _, namespaceOp_ok_eq st path lit st₁ vA cA tr o oT pp cc hns hview
    hcls hkind hT⟩

/-- C2 witness: `register("a", {View: bloomberg.View, total: 0})` completes
without error and returns the terminal container. -/
theorem c2_witness :
    ∃ st' fired,
      namespaceOp stViewLit "a" (some 12) = (st', .ok ⟨12, fired, [.ref 0, .ref 12]⟩) :=
  c2_register_ok_given_view_class stViewLit "a" 12
    (nsLoop stViewLit (.ref rootAddr) 12
      (if "a" = "" then [] else splitDots "a")).1
    12 6 [.ref 0, .ref 12] ⟨.cls none none, []⟩ none none
    (by decide) (by decide) (by decide) rfl

/-! ### Claim C10 -/

/-- C10: when `register` raises its `TypeError` after the walk/merge loop
has finished (here: the terminal container has no `View`), the raised error
carries the post-walk state: the registry has gained no entry, no readiness
event fires (the result is an error, not an `NsOk` with a `fired` list),
and the event pool's subscriptions are untouched — yet all mutations the
walk made (auto-created containers, the assigned or merged literal) remain
in the returned state.  Registration is not atomic; registry and bus are
only updated on a run that reaches the recording step. -/
theorem c10_error_after_walk_keeps_registry (st : St) (path : String)
    (lit : Nat) (st₁ : St) (vf : Val) (tr : List Val)
    (hns : nsLoop st (.ref rootAddr) lit
        (if path = "" then [] else splitDots path) = (st₁, .ok (vf, tr)))
    (hview : getProp st₁ vf "View" = none) :
    namespaceOp st path (some lit) = (st₁, .error .typeError) ∧
      st₁.registry = st.registry ∧ st₁.handlers = st.handlers := by
  have hfr := nsLoop_frame (if path = "" then [] else splitDots path) st
    (.ref rootAddr) lit
  rw [hns] at hfr
  exact ⟨namespaceOp_err_of_no_view st path lit st₁ vf tr hns hview,
    hfr.1, hfr.2.1⟩

/-- C10 witness: `register("a", {})` errors at the `View` step; the walk
has already linked the literal at `root.a`, but the registry and the event
pool are exactly as before the call. -/
theorem c10_witness :
    (namespaceOp stEmptyLit "a" (some 12) =
        ((nsLoop stEmptyLit (.ref rootAddr) 12
          (if "a" = "" then [] else splitDots "a")).1, .error .typeError) ∧
      (nsLoop stEmptyLit (.ref rootAddr) 12
          (if "a" = "" then [] else splitDots "a")).1.registry =
        stEmptyLit.registry ∧
      (nsLoop stEmptyLit (.ref rootAddr) 12
          (if "a" = "" then [] else splitDots "a")).1.handlers =
        stEmptyLit.handlers) ∧
      getProp (nsLoop stEmptyLit (.ref rootAddr) 12
          (if "a" = "" then [] else splitDots "a")).1 (.ref rootAddr) "a" =
        some (.ref 12) :=
  ⟨c10_error_after_walk_keeps_registry stEmptyLit "a" 12
      (nsLoop stEmptyLit (.ref rootAddr) 12
        (if "a" = "" then [] else splitDots "a")).1
      (.ref 12) [.ref 0, .ref 12] (by decide) (by decide),
    by decide⟩

/-! ### Claim C9 -/

/-- C9: after a `register(p, m)` call that returns normally (exhibited here
on the branch where the literal itself becomes the terminal container), the
`View` member of the terminal container is not the supplied `m.View` but a
freshly allocated subclass extending it, whose
`prototype.config.namespace.literal` is the fully-qualified path and whose
`prototype.config.namespace.object` is the terminal container itself. -/
theorem c9_view_replaced_by_extension (st : St) (path : String)
    (lit vc : Nat) (lo co : Obj) (st₁ : St) (tr : List Val)
    (pp : Option Nat) (cc : Option NsCfg)
    (hwf : st.WF) (hpath : path ≠ "")
    (hlit : alistGet st.heap lit = some lo)
    (hsup : alistGet lo.fields "View" = some (.ref vc))
    (hns : nsLoop st (.ref rootAddr) lit
        (if path = "" then [] else splitDots path) =
      (st₁, .ok (.ref lit, tr)))
    (hview : getProp st₁ (.ref lit) "View" = some (.ref vc))
    (hcls : alistGet st₁.heap vc = some co)
    (hkind : co.kind = .cls pp cc) :
    ∃ st' fired n,
      namespaceOp st path (some lit) = (st', .ok ⟨lit, fired, tr⟩) ∧
      getProp st' (.ref lit) "View" = some (.ref n) ∧
      Val.ref n ≠ Val.ref vc ∧
      alistGet st'.heap n =
        some ⟨.cls (some vc) (some ⟨fqName path, lit⟩), []⟩ := by
  rcases getProp_some_obj hview with ⟨oT, hT, hTf⟩
  have hwf₁ : st₁.WF := by
    have := nsLoop_WF (if path = "" then [] else splitDots path) st
      (.ref rootAddr) lit hwf
    rw [hns] at this
    exact this
  have hvclt : vc < st₁.next := WF_get_lt hwf₁ hcls
  have hlitlt : lit < st₁.next := WF_get_lt hwf₁ hT
  refine ⟨_, _, st₁.next,
    namespaceOp_ok_eq st path lit st₁ lit vc tr co oT pp cc hns hview hcls
      hkind hT, ?_, ?_, ?_⟩
  · show getProp _ (.ref lit) "View" = some (.ref st₁.next)
    rw [getProp]
    show (match alistGet (alistSet _ lit
        (⟨oT.kind, alistSet oT.fields "View" (.ref st₁.next)⟩ : Obj)) lit with
      | some o => alistGet o.fields "View"
      | none => none) = some (.ref st₁.next)
    rw [alistGet_set_self]
    exact alistGet_set_self _ _ _
  · intro hh
    cases hh
    exact absurd hvclt (lt_irrefl _)
  · show alistGet (alistSet _ lit _) st₁.next = _
    rw [alistGet_set_ne _ _ _ _ (Nat.ne_of_gt hlitlt),
      alistGet_append_right _ (WF_next_none hwf₁)]
    simp [alistGet]

/-- C9 witness: registering `"a"` with `{View: bloomberg.View, total: 0}`
replaces the literal's `View` (the base class at address 6) with a fresh
subclass whose namespace config is `("bloomberg.a", container)`. -/
theorem c9_witness :
    ∃ st' fired n,
      namespaceOp stViewLit "a" (some 12) =
          (st', .ok ⟨12, fired, [.ref 0, .ref 12]⟩) ∧
        getProp st' (.ref 12) "View" = some (.ref n) ∧
        Val.ref n ≠ Val.ref 6 ∧
        alistGet st'.heap n =
          some ⟨.cls (some 6) (some ⟨fqName "a", 12⟩), []⟩ :=
  c9_view_replaced_by_extension stViewLit "a" 12 6
    ⟨.plain, [("View", .ref 6), ("total", .num 0)]⟩ ⟨.cls none none, []⟩
    (nsLoop stViewLit (.ref rootAddr) 12
      (if "a" = "" then [] else splitDots "a")).1
    [.ref 0, .ref 12] none none
    (by decide) (by decide) (by decide) (by decide) (by decide) (by decide)
    (by decide) rfl

/-! ### Claim C8 -/

/-- C8 counterexample: `register("", {foo: 1, View: bloomberg.View})`
returns normally, but the loop `for (count = 0; count < 0; ...)` never
runs, so no key of the literal is merged into the root container: `foo` is
not retrievable from the root, refuting the claim that the last-segment
merge rule is applied to the root. -/
theorem c8_counterexample :
    (namespaceOp stFooLit "" (some 12)).2 = .ok ⟨0, [], [.ref 0]⟩ ∧
      getProp (namespaceOp stFooLit "" (some 12)).1 (.ref rootAddr) "foo" =
        none := by decide

/-- C8 amended: `register("", m)` treats the root container as the terminal
container but ignores `m` entirely (the walk loop has no segments to
process, so the last-segment merge rule never applies): every member of the
root other than `View` is untouched, `View` is re-extended, the recorded
and signalled fully-qualified path is just the root name, and the root
container is returned. -/
theorem c8_register_root_ignores_literal (st : St) (lit vc : Nat)
    (ro co : Obj) (pp : Option Nat) (cc : Option NsCfg)
    (hroot : alistGet st.heap rootAddr = some ro)
    (hview : getProp st (.ref rootAddr) "View" = some (.ref vc))
    (hcls : alistGet st.heap vc = some co)
    (hkind : co.kind = .cls pp cc) :
    ∃ st' fired,
      namespaceOp st "" (some lit) = (st', .ok ⟨rootAddr, fired, [.ref rootAddr]⟩) ∧
      alistGet st'.registry rootName = some rootAddr ∧
      st'.handlers = st.handlers ∧
      ∀ k, k ≠ "View" →
        getProp st' (.ref rootAddr) k = getProp st (.ref rootAddr) k := by
  have hns : nsLoop st (.ref rootAddr) lit
      (if "" = "" then [] else splitDots "") = (st, .ok (.ref rootAddr,
        [.ref rootAddr])) := rfl
  refine ⟨_, _,
    namespaceOp_ok_eq st "" lit st rootAddr vc [.ref rootAddr] co ro pp cc hns
      hview hcls hkind hroot, ?_, rfl, ?_⟩
  · show alistGet (alistSet st.registry (fqName "") rootAddr) rootName =
      some rootAddr
    rw [show fqName "" = rootName from rfl]
    exact alistGet_set_self _ _ _
  · intro k hk
    show getProp _ (.ref rootAddr) k = _
    rw [getProp]
    show (match alistGet (alistSet _ rootAddr
        (⟨ro.kind, alistSet ro.fields "View" (.ref st.next)⟩ : Obj))
          rootAddr with
      | some o => alistGet o.fields k
      | none => none) = getProp st (.ref rootAddr) k
    rw [alistGet_set_self]
    show alistGet (alistSet ro.fields "View" (.ref st.next)) k =
      getProp st (.ref rootAddr) k
    rw [alistGet_set_ne _ _ _ _ hk, getProp_of_obj hroot]

/-- C8 amended witness: `register("", {foo: 1, View: bloomberg.View})`
returns the root, records just the root name, and merges nothing. -/
theorem c8_witness :
    ∃ st' fired,
      namespaceOp stFooLit "" (some 12) =
          (st', .ok ⟨rootAddr, fired, [.ref rootAddr]⟩) ∧
        alistGet st'.registry rootName = some rootAddr ∧
        st'.handlers = stFooLit.handlers ∧
        ∀ k, k ≠ "View" →
          getProp st' (.ref rootAddr) k = getProp stFooLit (.ref rootAddr) k :=
  c8_register_root_ignores_literal stFooLit 12 11
    ⟨.plain,
      [("pool", .ref 1), ("Collection", .ref 2), ("Config", .ref 3),
        ("Model", .ref 4), ("Templates", .ref 5), ("View", .ref 11),
        ("namespace", .ref 7), ("ready", .ref 8), ("views", .ref 9)]⟩
    ⟨.cls (some 6) (some ⟨"bloomberg", 0⟩), []⟩
    (some 6) (some ⟨"bloomberg", 0⟩)
    (by decide) (by decide) (by decide) rfl

/-! ### Claim C3 -/

/-- C3 counterexample: `onReady("a", cb)` followed by
`register("a", {View: ..., total: 0})`.  The subscription is bound to the
event `"ready.a"`, but the registrar emits `"ready.bloomberg.a"` (the
fully-qualified name), so the callback does not fire during the `register`
call (its `fired` list is empty), refuting the claim that `cb` fires
exactly once before `register` returns when both calls use the same `p`. -/
theorem c3_counterexample :
    (ready stViewLit "a" 0).2 = [] ∧
      (namespaceOp (ready stViewLit "a" 0).1 "a" (some 12)).2 =
        .ok ⟨12, [], [.ref 0, .ref 12]⟩ := by decide

/-- C3 amended: if `onReady` is called with the fully-qualified path
(root name + "." + p) before any registration of `p` (no registry entry,
no pending subscription for that event), and `register(p, m)` later
completes, then the callback fires exactly once, synchronously inside the
`register` call (it is in the call's own `fired` list, emitted after the
walk/merge completes and before `register` returns). -/
theorem c3_ready_fq_fires_once_in_register (st : St) (path : String)
    (lit cb : Nat) (st' : St) (r : NsOk)
    (hnotreg : alistGet st.registry (fqName path) = none)
    (hnopending :
      st.handlers.filter (fun hd => hd.1 = "ready." ++ fqName path) = [])
    (hok : namespaceOp (ready st (fqName path) cb).1 path (some lit) =
      (st', .ok r)) :
    (ready st (fqName path) cb).2 = [] ∧ r.fired = [cb] := by
  have hready : ready st (fqName path) cb =
      ({ st with handlers :=
          st.handlers ++ [("ready." ++ fqName path, cb)] }, []) := by
    simp [ready, hnotreg]
  constructor
  · rw [hready]
  · have hfired := namespaceOp_fired _ path (some lit) st' r (by
      rw [hready] at hok; exact hok)
    rw [hfired.1]
    show (List.filter _ (st.handlers ++ [("ready." ++ fqName path, cb)])).map
      Prod.snd = [cb]
    rw [List.filter_append, hnopending]
    simp

/-- C3 amended witness: `onReady("bloomberg.a", cb)` then
`register("a", ...)`: the callback fires exactly once during the
registration call. -/
theorem c3_witness :
    (ready stViewLit (fqName "a") 0).2 = [] ∧
      (⟨12, [0], [Val.ref 0, Val.ref 12]⟩ : NsOk).fired = [0] :=
  c3_ready_fq_fires_once_in_register stViewLit "a" 12 0
    (namespaceOp (ready stViewLit (fqName "a") 0).1 "a" (some 12)).1
    ⟨12, [0], [.ref 0, .ref 12]⟩
    (by decide) (by decide) (by decide)

/-! ### The reading walk and its stability under writes off the walk -/

theorem getProp_some_cases {st : St} {v : Val} {k : String} {w : Val}
    (h : getProp st v k = some w) :
    ∃ a o, v = .ref a ∧ alistGet st.heap a = some o ∧
      alistGet o.fields k = some w := by
  cases v with
  | ref a =>
      rcases getProp_some_obj h with ⟨o, ho, hf⟩
      exact ⟨a, o, rfl, ho, hf⟩
  | num n => simp [getProp] at h
  | str s => simp [getProp] at h
  | boolV b => simp [getProp] at h

theorem wsne_toWalk :
    ∀ (parts : List String) (st : St) (t : Nat) (v vf : Val),
      WalkStepsNe st t v parts vf →
      parts.foldlM (getProp st) v = some vf := by
  intro parts
  induction parts with
  | nil =>
      intro st t v vf h
      cases h
      rfl
  | cons seg rest ih =>
      intro st t v vf h
      rcases h with ⟨hne, w, hw, hrest⟩
      show (getProp st v seg >>= fun b => rest.foldlM (getProp st) b) = some vf
      rw [hw]
      exact ih st t w vf hrest

theorem wsne_alloc :
    ∀ (parts : List String) (st : St) (t : Nat) (v vf : Val) (o : Obj),
      WalkStepsNe st t v parts vf →
      WalkStepsNe (alloc st o).1 t v parts vf := by
  intro parts
  induction parts with
  | nil => intro st t v vf o h; exact h
  | cons seg rest ih =>
      intro st t v vf o h
      rcases h with ⟨hne, w, hw, hrest⟩
      rcases getProp_some_cases hw with ⟨a, ao, hv, ha, hf⟩
      refine ⟨hne, w, ?_, ih st t w vf o hrest⟩
      subst hv
      rw [getProp_of_obj (alistGet_append_left _ ha)]
      exact hf

theorem wsne_setProp_avoid :
    ∀ (parts : List String) (st : St) (t : Nat) (v vf x : Val) (k : String),
      WalkStepsNe st t v parts vf →
      WalkStepsNe (setProp st (.ref t) k x).1 t v parts vf := by
  intro parts
  induction parts with
  | nil => intro st t v vf x k h; exact h
  | cons seg rest ih =>
      intro st t v vf x k h
      rcases h with ⟨hne, w, hw, hrest⟩
      rcases getProp_some_cases hw with ⟨a, ao, hv, ha, hf⟩
      refine ⟨hne, w, ?_, ih st t w vf x k hrest⟩
      subst hv
      have hat : a ≠ t := fun hh => hne (by rw [hh])
      cases hget : alistGet st.heap t with
      | none =>
          have : setProp st (.ref t) k x = (st, .error .typeError) := by
            simp [setProp, hget]
          rw [this]
          rw [getProp_of_obj ha]
          exact hf
      | some ot =>
          rw [getProp_of_obj (show alistGet (setProp st (.ref t) k x).1.heap a =
            some ao from (setProp_heap_get_ne hget k x hat).trans ha)]
          exact hf

/-- The state transformation of the registrar's merge loop when the merge
target is a heap object distinct from the container holding the link (the
tree-shaped situation): every field of the literal is folded into the
target and nothing else changes. -/
theorem mergeLoop_eq :
    ∀ (fs : List (String × Val)) (st : St) (a tW : Nat) (seg : String)
      (oW : Obj),
      getProp st (.ref a) seg = some (.ref tW) →
      a ≠ tW →
      alistGet st.heap tW = some oW →
      mergeLoop st (.ref a) seg fs =
        (⟨alistSet st.heap tW ⟨oW.kind, foldlSet oW.fields fs⟩,
            st.next, st.registry, st.handlers⟩,
          .ok ()) := by
  intro fs
  induction fs with
  | nil =>
      intro st a tW seg oW hlink hne hW
      have hh : alistSet st.heap tW
          (⟨oW.kind, foldlSet oW.fields []⟩ : Obj) = st.heap := by
        rw [foldlSet_nil]
        exact alistSet_self _ _ _ hW
      rw [hh]
      rfl
  | cons p rest ih =>
      intro st a tW seg oW hlink hne hW
      obtain ⟨k, x⟩ := p
      have hsp := setProp_eq hW k x
      have hget_a :
          alistGet (alistSet st.heap tW
            (⟨oW.kind, alistSet oW.fields k x⟩ : Obj)) a =
            alistGet st.heap a :=
        alistGet_set_ne _ _ _ _ hne
      have hlink₂ :
          getProp (⟨alistSet st.heap tW ⟨oW.kind, alistSet oW.fields k x⟩,
              st.next, st.registry, st.handlers⟩ : St) (.ref a) seg =
            some (.ref tW) := by
        rcases getProp_some_obj hlink with ⟨ao, ha, hf⟩
        have haa : alistGet (alistSet st.heap tW
            (⟨oW.kind, alistSet oW.fields k x⟩ : Obj)) a = some ao := by
          rw [hget_a]; exact ha
        rw [getProp_of_obj haa]
        exact hf
      have hW₂ :
          alistGet (alistSet st.heap tW
            (⟨oW.kind, alistSet oW.fields k x⟩ : Obj)) tW =
            some ⟨oW.kind, alistSet oW.fields k x⟩ :=
        alistGet_set_self _ _ _
      have hrec := ih (⟨alistSet st.heap tW ⟨oW.kind, alistSet oW.fields k x⟩,
          st.next, st.registry, st.handlers⟩ : St) a tW seg
        ⟨oW.kind, alistSet oW.fields k x⟩ hlink₂ hne hW₂
      have hstep : mergeLoop st (.ref a) seg ((k, x) :: rest) =
          mergeLoop (⟨alistSet st.heap tW ⟨oW.kind, alistSet oW.fields k x⟩,
            st.next, st.registry, st.handlers⟩ : St) (.ref a) seg rest := by
        simp only [mergeLoop, hlink, hsp]
      rw [hstep, hrec, foldlSet_cons]
      show (_, Except.ok ()) = (_, Except.ok ())
      rw [alistSet_set_same]

/-! ### Reductions of the loop under known branch conditions -/

theorem nsStep_absent_last {st : St} {v : Val} {lit : Nat} {seg : String}
    (hg : getProp st v seg = none) :
    nsStep st v lit seg true = setProp st v seg (.ref lit) := by
  simp [nsStep, hg]

theorem nsStep_absent_mid {st : St} {v : Val} {lit : Nat} {seg : String}
    (hg : getProp st v seg = none) :
    nsStep st v lit seg false =
      setProp (alloc st ⟨.plain, []⟩).1 v seg
        (.ref (alloc st ⟨.plain, []⟩).2) := by
  simp [nsStep, hg]

theorem nsStep_present_mid {st : St} {v w : Val} {lit : Nat} {seg : String}
    (hg : getProp st v seg = some w) :
    nsStep st v lit seg false = (st, .ok ()) := by
  simp [nsStep, hg]

theorem nsStep_present_last {st : St} {v w : Val} {lit : Nat} {seg : String}
    (hg : getProp st v seg = some w) :
    nsStep st v lit seg true = mergeLoop st v seg (litFields st lit) := by
  simp [nsStep, hg]

theorem nsLoop_cons_ok {st st₁ st₂ : St} {v v' vf : Val} {lit : Nat}
    {seg : String} {rest : List String} {u : Unit} {tr : List Val}
    (hstep : nsStep st v lit seg rest.isEmpty = (st₁, .ok u))
    (hre : getProp st₁ v seg = some v')
    (hrec : nsLoop st₁ v' lit rest = (st₂, .ok (vf, tr))) :
    nsLoop st v lit (seg :: rest) = (st₂, .ok (vf, v :: tr)) := by
  simp only [nsLoop, hstep, hre, hrec]

theorem nsLoop_cons_rec_err {st st₁ st₂ : St} {v v' : Val} {lit : Nat}
    {seg : String} {rest : List String} {u : Unit} {e : JsErr}
    (hstep : nsStep st v lit seg rest.isEmpty = (st₁, .ok u))
    (hre : getProp st₁ v seg = some v')
    (hrec : nsLoop st₁ v' lit rest = (st₂, .error e)) :
    nsLoop st v lit (seg :: rest) = (st₂, .error e) := by
  simp only [nsLoop, hstep, hre, hrec]

/-- An absent non-last segment allocates a fresh empty container and links
it; this packages the successor state with the facts the inductions use. -/
theorem nsStep_absent_mid_spec (st : St) (a lit : Nat) (ao : Obj)
    (seg : String) (hwf : st.WF) (ha : alistGet st.heap a = some ao)
    (hseg : alistGet ao.fields seg = none) :
    ∃ st₁, nsStep st (.ref a) lit seg false = (st₁, .ok ()) ∧
      st₁.WF ∧ st₁.next = st.next + 1 ∧ st₁.registry = st.registry ∧
      st₁.handlers = st.handlers ∧
      alistGet st₁.heap a = some ⟨ao.kind, ao.fields ++ [(seg, .ref st.next)]⟩ ∧
      alistGet st₁.heap st.next = some ⟨.plain, []⟩ ∧
      (∀ b, b ≠ a → b ≠ st.next → alistGet st₁.heap b = alistGet st.heap b) ∧
      getProp st₁ (.ref a) seg = some (.ref st.next) := by
  have halt : a < st.next := WF_get_lt hwf ha
  have hgp : getProp st (.ref a) seg = none := by
    rw [getProp_of_obj ha]; exact hseg
  have haA : alistGet (alloc st ⟨.plain, []⟩).1.heap a = some ao := by
    rw [alloc_heap_get_lt _ (Nat.ne_of_lt halt)]; exact ha
  have hstep := @nsStep_absent_mid st (.ref a) lit seg hgp
  rw [setProp_eq haA] at hstep
  refine ⟨_, hstep, ?_, rfl, rfl, rfl, ?_, ?_, ?_, ?_⟩
  · have := setProp_WF (@alloc_WF st hwf ⟨.plain, []⟩ (by simp)) (.ref a) seg (.ref st.next)
    rw [setProp_eq haA] at this
    exact this
  · show alistGet (alistSet (alloc st ⟨.plain, []⟩).1.heap a _) a = _
    rw [alistGet_set_self, alistSet_of_get_none _ hseg]
    rfl
  · show alistGet (alistSet (alloc st ⟨.plain, []⟩).1.heap a _) st.next = _
    rw [alistGet_set_ne _ _ _ _ (Nat.ne_of_lt halt).symm]
    exact alloc_heap_get_self hwf _
  · intro b hba hbn
    show alistGet (alistSet (alloc st ⟨.plain, []⟩).1.heap a _) b = _
    rw [alistGet_set_ne _ _ _ _ hba]
    exact alloc_heap_get_lt _ hbn
  · show getProp _ (.ref a) seg = _
    rw [getProp_of_obj (show alistGet
      (alistSet (alloc st ⟨.plain, []⟩).1.heap a
        (⟨ao.kind, alistSet ao.fields seg (.ref st.next)⟩ : Obj)) a =
      some ⟨ao.kind, alistSet ao.fields seg (.ref st.next)⟩
      from alistGet_set_self _ _ _)]
    show alistGet (alistSet ao.fields seg (Val.ref st.next)) seg = _
    rw [alistGet_set_self]

/-- An absent last segment assigns the literal itself as the terminal
container. -/
theorem nsStep_absent_last_spec (st : St) (a lit : Nat) (ao : Obj)
    (seg : String) (hwf : st.WF) (ha : alistGet st.heap a = some ao)
    (hseg : alistGet ao.fields seg = none) :
    ∃ st₁, nsStep st (.ref a) lit seg true = (st₁, .ok ()) ∧
      st₁.WF ∧ st₁.next = st.next ∧ st₁.registry = st.registry ∧
      st₁.handlers = st.handlers ∧
      alistGet st₁.heap a = some ⟨ao.kind, ao.fields ++ [(seg, .ref lit)]⟩ ∧
      (∀ b, b ≠ a → alistGet st₁.heap b = alistGet st.heap b) ∧
      getProp st₁ (.ref a) seg = some (.ref lit) := by
  have hgp : getProp st (.ref a) seg = none := by
    rw [getProp_of_obj ha]; exact hseg
  have hstep := @nsStep_absent_last st (.ref a) lit seg hgp
  rw [setProp_eq ha] at hstep
  refine ⟨_, hstep, ?_, rfl, rfl, rfl, ?_, ?_, ?_⟩
  · have := setProp_WF hwf (.ref a) seg (.ref lit)
    rw [setProp_eq ha] at this
    exact this
  · show alistGet (alistSet st.heap a _) a = _
    rw [alistGet_set_self, alistSet_of_get_none _ hseg]
  · intro b hba
    exact alistGet_set_ne _ _ _ _ hba
  · show getProp _ (.ref a) seg = _
    rw [getProp_of_obj (show alistGet (alistSet st.heap a
        (⟨ao.kind, alistSet ao.fields seg (.ref lit)⟩ : Obj)) a =
      some ⟨ao.kind, alistSet ao.fields seg (.ref lit)⟩
      from alistGet_set_self _ _ _)]
    show alistGet (alistSet ao.fields seg (Val.ref lit)) seg = _
    rw [alistGet_set_self]

/-! ### The create chain: from the first absent segment on, the loop
builds fresh empty containers and ends by assigning the literal -/

theorem nsLoop_create :
    ∀ (rest : List String) (seg : String) (st : St) (a lit : Nat)
      (ao lo : Obj),
      st.WF →
      alistGet st.heap a = some ao →
      alistGet ao.fields seg = none →
      alistGet st.heap lit = some lo →
      a ≠ lit →
      ∃ (st' : St) (tr : List Val),
        nsLoop st (.ref a) lit (seg :: rest) =
          (st', .ok (.ref lit, .ref a :: tr)) ∧
        st'.WF ∧
        st.next ≤ st'.next ∧
        st'.registry = st.registry ∧
        st'.handlers = st.handlers ∧
        (∀ b, b ≠ a → b < st.next →
            alistGet st'.heap b = alistGet st.heap b) ∧
        (∃ w, alistGet st'.heap a =
            some ⟨ao.kind, ao.fields ++ [(seg, w)]⟩) ∧
        WalkStepsNe st' lit (.ref a) (seg :: rest) (.ref lit) ∧
        (∀ j seg' rest', (seg :: rest).drop (j + 1) = seg' :: rest' →
            ∃ f w', WalkStepsNe st' lit (.ref a)
                ((seg :: rest).take (j + 1)) (.ref f) ∧
              st.next ≤ f ∧
              alistGet st'.heap f = some ⟨.plain, [(seg', w')]⟩) := by
  intro rest
  induction rest with
  | nil =>
      intro seg st a lit ao lo hwf ha hseg hlit hane
      rcases nsStep_absent_last_spec st a lit ao seg hwf ha hseg with
        ⟨st₁, hstep, hWF₁, hnext₁, hreg₁, hhan₁, hafld, hframe, hre⟩
      have heq := nsLoop_cons_ok hstep hre
        (show nsLoop st₁ (.ref lit) lit [] = (st₁, .ok (.ref lit, [.ref lit]))
          from rfl)
      refine ⟨st₁, [.ref lit], heq, hWF₁, le_of_eq hnext₁.symm, hreg₁, hhan₁,
        ?_, ⟨.ref lit, hafld⟩, ?_, ?_⟩
      · intro b hb _
        exact hframe b hb
      · exact ⟨fun hh => hane (by cases hh; rfl), .ref lit, hre, rfl⟩
      · intro j seg' rest' hdrop
        rw [List.drop_succ_cons, List.drop_nil] at hdrop
        cases hdrop
  | cons r rest₂ ih =>
      intro seg st a lit ao lo hwf ha hseg hlit hane
      have halt : a < st.next := WF_get_lt hwf ha
      have hlitlt : lit < st.next := WF_get_lt hwf hlit
      rcases nsStep_absent_mid_spec st a lit ao seg hwf ha hseg with
        ⟨st₁, hstep, hWF₁, hnext₁, hreg₁, hhan₁, hafld, hfres, hframe₁, hre⟩
      -- the literal is untouched by the allocation and the link
      have hlit₁ : alistGet st₁.heap lit = some lo := by
        rw [hframe₁ lit (fun hh => hane hh.symm) (Nat.ne_of_lt hlitlt)]
        exact hlit
      -- recurse from the fresh empty container
      rcases ih r st₁ st.next lit ⟨.plain, []⟩ lo hWF₁ hfres (by simp [alistGet])
          hlit₁ (Nat.ne_of_gt hlitlt) with
        ⟨st', tr', hrec, hWF', hnext', hreg', hhan', hframe', hffld, hwsne,
          hmade⟩
      have heq := nsLoop_cons_ok hstep hre hrec
      have hfreslt : st.next < st₁.next := by
        rw [hnext₁]; exact Nat.lt_succ_self _
      -- the containing object's new field survives the recursion
      have ha' : alistGet st'.heap a =
          some ⟨ao.kind, ao.fields ++ [(seg, Val.ref st.next)]⟩ := by
        rw [hframe' a (Nat.ne_of_lt halt) (lt_trans halt hfreslt)]
        exact hafld
      have hlink' : getProp st' (.ref a) seg = some (.ref st.next) := by
        rw [getProp_of_obj ha', alistGet_append_right _ hseg]
        simp [alistGet]
      have hanelit : Val.ref a ≠ Val.ref lit := fun hh => hane (by cases hh; rfl)
      refine ⟨st', .ref st.next :: tr', heq, hWF',
        le_trans (le_of_lt hfreslt) hnext', hreg'.trans hreg₁,
        hhan'.trans hhan₁, ?_, ⟨.ref st.next, ha'⟩, ?_, ?_⟩
      · intro b hba hblt
        rw [hframe' b (Nat.ne_of_lt hblt) (lt_trans hblt hfreslt)]
        exact hframe₁ b hba (Nat.ne_of_lt hblt)
      · exact ⟨hanelit, .ref st.next, hlink', hwsne⟩
      · intro j seg' rest' hdrop
        cases j with
        | zero =>
            rw [List.drop_succ_cons, List.drop_zero] at hdrop
            rcases hffld with ⟨w, hw⟩
            cases hdrop
            refine ⟨st.next, w, ?_, le_refl _, by simpa using hw⟩
            exact ⟨hanelit, .ref st.next, hlink', rfl⟩
        | succ j' =>
            rw [List.drop_succ_cons] at hdrop
            rcases hmade j' seg' rest' hdrop with ⟨f, w', hwj, hfle, hff⟩
            refine ⟨f, w', ?_, le_trans (le_of_lt hfreslt) hfle, hff⟩
            rw [List.take_succ_cons]
            exact ⟨hanelit, .ref st.next, hlink', hwj⟩

/-! ### Facts about the read-only walk and degenerate loop runs -/

theorem roWalk_cons_some {st : St} {v w : Val} {seg : String}
    (rest : List String) (hg : getProp st v seg = some w) :
    roWalk st v (seg :: rest) = v :: roWalk st w rest := by
  simp [roWalk, hg]

theorem roWalk_cons_none {st : St} {v : Val} {seg : String}
    (rest : List String) (hg : getProp st v seg = none) :
    roWalk st v (seg :: rest) = [v] := by
  simp [roWalk, hg]

theorem getLastD_mem {α : Type} :
    ∀ (l : List α) (d : α), l ≠ [] → l.getLastD d ∈ l := by
  intro l
  induction l with
  | nil => intro d h; exact absurd rfl h
  | cons a t ih =>
      intro d _
      cases ht : t with
      | nil => simp [List.getLastD]
      | cons b t' =>
          rw [List.getLastD_cons]
          rw [← ht]
          exact List.mem_cons_of_mem _ (ih a (by rw [ht]; exact List.cons_ne_nil _ _))

theorem setProp_prim {st : St} {v : Val} (k : String) (x : Val)
    (hv : ∀ a, v ≠ .ref a) :
    setProp st v k x = (st, .error .typeError) := by
  cases v with
  | ref a => exact absurd rfl (hv a)
  | num n => rfl
  | str s => rfl
  | boolV b => rfl

theorem nsStep_prim_err (st : St) (v : Val) (lit : Nat) (seg : String)
    (isLast : Bool) (hv : ∀ a, v ≠ .ref a) :
    ∃ st₂, nsStep st v lit seg isLast = (st₂, .error .typeError) := by
  have hg : getProp st v seg = none := by
    cases v with
    | ref a => exact absurd rfl (hv a)
    | num n => rfl
    | str s => rfl
    | boolV b => rfl
  cases isLast with
  | true =>
      refine ⟨st, ?_⟩
      rw [nsStep_absent_last hg, setProp_prim _ _ hv]
  | false =>
      refine ⟨(alloc st ⟨.plain, []⟩).1, ?_⟩
      rw [nsStep_absent_mid hg, setProp_prim _ _ hv]

theorem nsLoop_cons_err {st st₂ : St} {v : Val} {lit : Nat} {seg : String}
    {rest : List String} {e : JsErr}
    (hstep : nsStep st v lit seg rest.isEmpty = (st₂, .error e)) :
    nsLoop st v lit (seg :: rest) = (st₂, .error e) := by
  simp only [nsLoop, hstep]

/-- The merge step on a terminal whose `View`-bearing target is a valid
heap object distinct from the link holder. -/
theorem nsStep_present_last_spec (st : St) (a tW lit : Nat) (seg : String)
    (oW lo : Obj) (hwf : st.WF)
    (hlink : getProp st (.ref a) seg = some (.ref tW))
    (hne : a ≠ tW)
    (hW : alistGet st.heap tW = some oW)
    (hlit : alistGet st.heap lit = some lo) :
    ∃ st₁, nsStep st (.ref a) lit seg true = (st₁, .ok ()) ∧
      st₁.WF ∧ st₁.next = st.next ∧ st₁.registry = st.registry ∧
      st₁.handlers = st.handlers ∧
      alistGet st₁.heap tW = some ⟨oW.kind, foldlSet oW.fields lo.fields⟩ ∧
      (∀ b, b ≠ tW → alistGet st₁.heap b = alistGet st.heap b) ∧
      getProp st₁ (.ref a) seg = some (.ref tW) := by
  have hfs : litFields st lit = lo.fields := by rw [litFields, hlit]
  have hstep := @nsStep_present_last st (.ref a) (.ref tW) lit seg hlink
  rw [hfs, mergeLoop_eq lo.fields st a tW seg oW hlink hne hW] at hstep
  refine ⟨_, hstep, ?_, rfl, rfl, rfl, ?_, ?_, ?_⟩
  · have := mergeLoop_WF lo.fields st (.ref a) seg hwf
    rw [show mergeLoop st (.ref a) seg lo.fields =
      mergeLoop st (.ref a) seg (litFields st lit) from by rw [hfs]] at this
    rw [show mergeLoop st (.ref a) seg (litFields st lit) =
      (⟨alistSet st.heap tW ⟨oW.kind, foldlSet oW.fields lo.fields⟩,
        st.next, st.registry, st.handlers⟩, .ok ()) from by
      rw [hfs]; exact mergeLoop_eq lo.fields st a tW seg oW hlink hne hW]
      at this
    exact this
  · exact alistGet_set_self _ _ _
  · intro b hb
    exact alistGet_set_ne _ _ _ _ hb
  · rcases getProp_some_obj hlink with ⟨ao, ha, hf⟩
    have haa : alistGet (alistSet st.heap tW
        (⟨oW.kind, foldlSet oW.fields lo.fields⟩ : Obj)) a = some ao := by
      rw [alistGet_set_ne _ _ _ _ hne]; exact ha
    show getProp _ (.ref a) seg = _
    rw [getProp_of_obj haa]
    exact hf

theorem getLastD_irrel {α : Type} :
    ∀ (l : List α) (d₁ d₂ : α), l ≠ [] → l.getLastD d₁ = l.getLastD d₂ := by
  intro l
  induction l with
  | nil => intro d₁ d₂ h; exact absurd rfl h
  | cons a t ih =>
      intro d₁ d₂ _
      rw [List.getLastD_cons, List.getLastD_cons]

theorem roWalk_ne_nil (st : St) (v : Val) (parts : List String) :
    roWalk st v parts ≠ [] := by
  cases parts with
  | nil => simp [roWalk]
  | cons seg rest =>
      cases hg : getProp st v seg with
      | some w => rw [roWalk_cons_some rest hg]; exact List.cons_ne_nil _ _
      | none => rw [roWalk_cons_none rest hg]; exact List.cons_ne_nil _ _

/-- A single-segment run whose existing terminal value is a primitive
cannot finish with a reference: either the merge throws (assignment to a
property of a primitive) or the run returns the primitive itself. -/
theorem nsLoop_single_prim_absurd (st : St) (v w : Val) (lit : Nat)
    (seg : String) (hg : getProp st v seg = some w)
    (hprim : ∀ b, w ≠ .ref b) (st₁ : St) (tA : Nat) (tr : List Val)
    (hns : nsLoop st v lit [seg] = (st₁, .ok (.ref tA, tr))) : False := by
  cases hfs : litFields st lit with
  | nil =>
      have hstep : nsStep st v lit seg true = (st, .ok ()) := by
        rw [@nsStep_present_last st v w lit seg hg, hfs]
        rfl
      have heq := nsLoop_cons_ok hstep hg
        (show nsLoop st w lit [] = (st, .ok (w, [w])) from rfl)
      rw [heq] at hns
      have : w = .ref tA := by
        have h2 := congrArg Prod.snd hns
        simp at h2
        exact h2.1
      exact hprim tA this
  | cons p fs' =>
      obtain ⟨k, x⟩ := p
      have hml : mergeLoop st v seg ((k, x) :: fs') = (st, .error .typeError) := by
        simp only [mergeLoop, hg, setProp_prim k x hprim]
      have hstep : nsStep st v lit seg true = (st, .error .typeError) := by
        rw [@nsStep_present_last st v w lit seg hg, hfs, hml]
      have heq := @nsLoop_cons_err st st v lit seg [] .typeError hstep
      rw [heq] at hns
      simp at hns

/-- Under the spec's tree-shaped data model (the containers the walk
visits are pairwise distinct and none of them is the literal), a completed
walk/create/merge loop satisfies `CleanRun`: the walk reads back to the
terminal, the literal's fields are on the terminal, nothing else moved. -/
theorem nsLoop_clean :
    ∀ (parts : List String) (st : St) (v : Val) (lit tA : Nat) (lo : Obj)
      (st₁ : St) (tr : List Val),
      parts ≠ [] →
      st.WF →
      alistGet st.heap lit = some lo →
      (roWalk st v parts ++ [Val.ref lit]).Nodup →
      (∀ u ∈ roWalk st v parts, ∀ b, u = .ref b →
        (alistGet st.heap b).isSome) →
      nsLoop st v lit parts = (st₁, .ok (.ref tA, tr)) →
      CleanRun st v parts lit lo st₁ tA := by
  intro parts
  induction parts with
  | nil => intro st v lit tA lo st₁ tr hne; exact absurd rfl hne
  | cons seg rest ih =>
      intro st v lit tA lo st₁ tr _ hwf hlit hnd hvalid hns
      cases v with
      | num n =>
          rcases nsStep_prim_err st (.num n) lit seg rest.isEmpty
            (fun a h => by cases h) with ⟨st₂, hstep⟩
          rw [nsLoop_cons_err hstep] at hns
          simp at hns
      | str s =>
          rcases nsStep_prim_err st (.str s) lit seg rest.isEmpty
            (fun a h => by cases h) with ⟨st₂, hstep⟩
          rw [nsLoop_cons_err hstep] at hns
          simp at hns
      | boolV bb =>
          rcases nsStep_prim_err st (.boolV bb) lit seg rest.isEmpty
            (fun a h => by cases h) with ⟨st₂, hstep⟩
          rw [nsLoop_cons_err hstep] at hns
          simp at hns
      | ref a =>
          have hvmem : Val.ref a ∈ roWalk st (.ref a) (seg :: rest) := by
            cases hg : getProp st (.ref a) seg with
            | some w =>
                rw [roWalk_cons_some rest hg]; exact List.mem_cons_self _ _
            | none =>
                rw [roWalk_cons_none rest hg]; exact List.mem_cons_self _ _
          have haval := hvalid _ hvmem a rfl
          rcases hao : alistGet st.heap a with _ | ao
          · rw [hao] at haval; cases haval
          have halt : a < st.next := WF_get_lt hwf hao
          have hlitlt : lit < st.next := WF_get_lt hwf hlit
          cases hg : getProp st (.ref a) seg with
          | none =>
              -- the create chain: the literal becomes the terminal
              have hseg : alistGet ao.fields seg = none := by
                rw [getProp_of_obj hao] at hg; exact hg
              have hro : roWalk st (.ref a) (seg :: rest) = [.ref a] :=
                roWalk_cons_none rest hg
              rw [hro] at hnd
              have hane : a ≠ lit := by
                intro hh
                subst hh
                simp at hnd
              rcases nsLoop_create rest seg st a lit ao lo hwf hao hseg hlit
                hane with ⟨st', tr', heq, hWF', hnext', hreg', hhan', hframe,
                  hafld, hwsne, hmade⟩
              rw [heq] at hns
              have hst : st' = st₁ ∧ lit = tA := by
                have h1 := congrArg Prod.fst hns
                have h2 := congrArg Prod.snd hns
                simp at h1 h2
                exact ⟨h1, h2.1⟩
              obtain ⟨hst1, hst2⟩ := hst
              subst hst1
              subst hst2
              have hlitst : alistGet st'.heap lit = some lo := by
                rw [hframe lit (fun hh => hane hh.symm) hlitlt]
                exact hlit
              refine ⟨hwsne, ?_, ?_, ?_, Or.inl rfl, fun _ => rfl, ?_⟩
              · intro k _
                rw [getProp_of_obj hlitst]
              · intro k _
                rw [getProp_of_obj hlitst, getProp_of_obj hlit]
              · intro k
                rw [getProp_of_obj hlitst, getProp_of_obj hlit]
                simp [alistGet_isSome_iff_mem, keysOf]
              · refine ⟨a, by rw [hro]; rfl, ?_⟩
                intro b hblt hba
                exact hframe b hba hblt
          | some w =>
              have hro : roWalk st (.ref a) (seg :: rest) =
                  .ref a :: roWalk st w rest := roWalk_cons_some rest hg
              rw [hro] at hnd hvalid
              have hndtail : (roWalk st w rest ++ [Val.ref lit]).Nodup := by
                rw [List.cons_append] at hnd
                exact hnd.of_cons
              have hanotin : Val.ref a ∉ roWalk st w rest ++ [Val.ref lit] := by
                rw [List.cons_append] at hnd
                exact (List.nodup_cons.mp hnd).1
              cases rest with
              | nil =>
                  -- terminal merge into the existing value w
                  cases w with
                  | num n =>
                      exact absurd hns (by
                        intro hh
                        exact nsLoop_single_prim_absurd st (.ref a) (.num n)
                          lit seg hg (fun b h => by cases h) st₁ tA tr hh)
                  | str s =>
                      exact absurd hns (by
                        intro hh
                        exact nsLoop_single_prim_absurd st (.ref a) (.str s)
                          lit seg hg (fun b h => by cases h) st₁ tA tr hh)
                  | boolV bbb =>
                      exact absurd hns (by
                        intro hh
                        exact nsLoop_single_prim_absurd st (.ref a)
                          (.boolV bbb) lit seg hg (fun b h => by cases h)
                          st₁ tA tr hh)
                  | ref tW =>
                      have htWval := hvalid (.ref tW) (by
                        rw [show roWalk st (.ref tW) [] = [.ref tW] from rfl]
                        exact List.mem_cons_of_mem _ (List.mem_cons_self _ _))
                        tW rfl
                      rcases hoW : alistGet st.heap tW with _ | oW
                      · rw [hoW] at htWval; cases htWval
                      have hanew : a ≠ tW := by
                        intro hh
                        subst hh
                        rw [show roWalk st (.ref a) [] = [.ref a] from rfl]
                          at hnd
                        simp at hnd
                      rcases nsStep_present_last_spec st a tW lit seg oW lo
                        hwf hg hanew hoW hlit with ⟨st₂, hstep, hWF₂, hnext₂,
                          hreg₂, hhan₂, htWfld, hframe₂, hre₂⟩
                      have heq := nsLoop_cons_ok hstep hre₂
                        (show nsLoop st₂ (.ref tW) lit [] =
                          (st₂, .ok (.ref tW, [.ref tW])) from rfl)
                      rw [heq] at hns
                      have hst : st₂ = st₁ ∧ tW = tA := by
                        have h1 := congrArg Prod.fst hns
                        have h2 := congrArg Prod.snd hns
                        simp at h1 h2
                        exact ⟨h1, h2.1⟩
                      obtain ⟨hst1, hst2⟩ := hst
                      subst hst1
                      subst hst2
                      have hnodupLit : (keysOf lo.fields).Nodup :=
                        WF_get_nodup hwf hlit
                      refine ⟨⟨fun hh => hanew (by cases hh; rfl),
                          .ref tW, hre₂, rfl⟩, ?_, ?_, ?_, ?_, ?_, ?_⟩
                      · intro k hk
                        rw [getProp_of_obj htWfld]
                        show alistGet (foldlSet oW.fields lo.fields) k = _
                        rcases Option.isSome_iff_exists.mp
                          ((alistGet_isSome_iff_mem lo.fields k).mpr hk) with
                          ⟨x, hx⟩
                        rw [foldlSet_get_of_get _ _ _ _ hnodupLit hx, hx]
                      · intro k hk
                        rw [getProp_of_obj htWfld, getProp_of_obj hoW]
                        exact foldlSet_get_of_not_mem _ _ _ hk
                      · intro k
                        rw [getProp_of_obj htWfld, getProp_of_obj hoW,
                          alistGet_isSome_iff_mem, alistGet_isSome_iff_mem]
                        exact foldlSet_keys_mem _ _ _
                      · refine Or.inr ?_
                        rw [hro]
                        rfl
                      · intro hlen
                        rw [hro] at hlen
                        simp [roWalk] at hlen
                      · refine ⟨tW, by rw [hro]; rfl, ?_⟩
                        intro b _ hb
                        exact hframe₂ b hb
              | cons r rest₂ =>
                  -- an existing intermediate link: descend without mutating
                  have hstep := @nsStep_present_mid st (.ref a) w lit seg hg
                  rcases hrec : nsLoop st w lit (r :: rest₂) with ⟨st₂, res⟩
                  cases res with
                  | error e =>
                      rw [nsLoop_cons_rec_err hstep hg hrec] at hns
                      simp at hns
                  | ok pr =>
                      obtain ⟨vf, tr₂⟩ := pr
                      rw [nsLoop_cons_ok hstep hg hrec] at hns
                      have hst : st₂ = st₁ ∧ vf = .ref tA := by
                        have h1 := congrArg Prod.fst hns
                        have h2 := congrArg Prod.snd hns
                        simp at h1 h2
                        exact ⟨h1, h2.1⟩
                      obtain ⟨hst1, hst2⟩ := hst
                      subst hst1
                      subst hst2
                      have CR := ih st w lit tA lo st₂ tr₂
                        (List.cons_ne_nil _ _) hwf hlit hndtail
                        (fun u hu b hb =>
                          hvalid u (List.mem_cons_of_mem _ hu) b hb) hrec
                      have htailne : roWalk st w (r :: rest₂) ≠ [] :=
                        roWalk_ne_nil _ _ _
                      rcases CR.frame with ⟨wa, hwa, hfr⟩
                      have hwamem : Val.ref wa ∈ roWalk st w (r :: rest₂) := by
                        rw [← hwa]
                        exact getLastD_mem _ _ htailne
                      have hanewa : a ≠ wa := by
                        intro hh
                        subst hh
                        exact hanotin (List.mem_append_left _ hwamem)
                      have hao₁ : alistGet st₂.heap a = some ao := by
                        rw [hfr a halt hanewa]
                        exact hao
                      have hlink₁ : getProp st₂ (.ref a) seg = some w := by
                        rw [getProp_of_obj hao₁]
                        rw [getProp_of_obj hao] at hg
                        exact hg
                      have hvneq : Val.ref a ≠ Val.ref tA := by
                        rcases CR.retLast with h | h
                        · intro hh
                          refine hanotin (List.mem_append_right _ ?_)
                          rw [show Val.ref a = Val.ref lit from by rw [hh, h]]
                          exact List.mem_singleton.mpr rfl
                        · intro hh
                          refine hanotin (List.mem_append_left _ ?_)
                          rw [hh, h]
                          exact getLastD_mem _ _ htailne
                      refine ⟨⟨hvneq, w, hlink₁, CR.wsne⟩, CR.keysNew,
                        CR.keysOld, CR.keysIff, ?_, ?_, ?_⟩
                      · rcases CR.retLast with h | h
                        · exact Or.inl h
                        · refine Or.inr ?_
                          rw [hro, List.getLastD_cons,
                            getLastD_irrel _ _ w htailne]
                          exact h
                      · intro hlen
                        rw [hro] at hlen
                        simp only [List.length_cons, Nat.succ_le_succ_iff]
                          at hlen
                        exact CR.retAssign hlen
                      · refine ⟨wa, ?_, hfr⟩
                        rw [hro, List.getLastD_cons,
                          getLastD_irrel _ _ w htailne]
                        exact hwa

/-- Inversion of a successful `Base.prototype.namespace` run: it
decomposes into a successful walk/create/merge loop followed by the `View`
extension, the registry record and the event trigger, and the final state
is exactly the one `namespaceOp_ok_eq` describes. -/
theorem namespaceOp_ok_inv (st : St) (path : String) (lit : Nat) (st' : St)
    (r : NsOk)
    (h : namespaceOp st path (some lit) = (st', .ok r)) :
    ∃ st₁ cA o pp cc oT,
      nsLoop st (.ref rootAddr) lit
        (if path = "" then [] else splitDots path) =
        (st₁, .ok (.ref r.ret, r.trace)) ∧
      getProp st₁ (.ref r.ret) "View" = some (.ref cA) ∧
      alistGet st₁.heap cA = some o ∧
      o.kind = .cls pp cc ∧
      alistGet st₁.heap r.ret = some oT ∧
      st' = ⟨alistSet (st₁.heap ++ [(st₁.next,
          ⟨.cls (some cA) (some ⟨fqName path, r.ret⟩), []⟩)]) r.ret
          ⟨oT.kind, alistSet oT.fields "View" (.ref st₁.next)⟩,
        st₁.next + 1,
        alistSet st₁.registry (fqName path) r.ret,
        st₁.handlers⟩ ∧
      r.fired = (st₁.handlers.filter
        (fun hd => hd.1 = "ready." ++ fqName path)).map Prod.snd := by
  rw [namespaceOp.eq_def] at h
  dsimp only at h
  rcases hns : nsLoop st (.ref rootAddr) lit
      (if path = "" then [] else splitDots path) with ⟨st₁, rr⟩
  rw [hns] at h
  cases rr with
  | error e => cases h
  | ok pr =>
      obtain ⟨vf, tr⟩ := pr
      cases vf with
      | num n => cases h
      | str s => cases h
      | boolV b => cases h
      | ref vA =>
          dsimp only at h
          cases hview : getProp st₁ (.ref vA) "View" with
          | none => rw [hview] at h; cases h
          | some w =>
              rw [hview] at h
              cases w with
              | num n => cases h
              | str s => cases h
              | boolV b => cases h
              | ref cA =>
                  dsimp only at h
                  cases hcls : alistGet st₁.heap cA with
                  | none => rw [hcls] at h; cases h
                  | some o =>
                      rw [hcls] at h
                      dsimp only at h
                      cases hkind : o.kind with
                      | plain => rw [hkind] at h; cases h
                      | cls pp cc =>
                          rw [hkind] at h
                          dsimp only at h
                          rcases getProp_some_obj hview with ⟨oT, hT, hTf⟩
                          have hTA : alistGet (st₁.heap ++ [(st₁.next,
                              (⟨.cls (some cA) (some ⟨fqName path, vA⟩),
                                []⟩ : Obj))]) vA = some oT :=
                            alistGet_append_left _ hT
                          rw [setProp_eq hTA "View"
                            (.ref (alloc st₁ ⟨.cls (some cA)
                              (some ⟨fqName path, vA⟩), []⟩).2)] at h
                          dsimp only at h
                          have h1 := congrArg Prod.fst h
                          have h2 := congrArg Prod.snd h
                          dsimp only at h1 h2
                          have hr : r = ⟨vA,
                              (st₁.handlers.filter (fun hd =>
                                hd.1 = "ready." ++ fqName path)).map Prod.snd,
                              tr⟩ := by
                            cases h2
                            rfl
                          subst hr
                          refine ⟨st₁, cA, o, pp, cc, oT, ?_, hview, hcls,
                            hkind, hT, ?_, rfl⟩
                          · rfl
                          · rw [← h1]
                            rfl

theorem splitDotsChars_ne_nil : ∀ l : List Char, splitDotsChars l ≠ [] := by
  intro l
  induction l with
  | nil => simp [splitDotsChars]
  | cons c rest ih =>
      rcases h : splitDotsChars rest with _ | ⟨h1, t1⟩
      · exact absurd h ih
      · by_cases hc : c = '.'
        · simp [splitDotsChars, h, hc]
        · simp [splitDotsChars, h, hc]

theorem splitDots_ne_nil (s : String) : splitDots s ≠ [] := by
  rcases h : splitDotsChars s.data with _ | ⟨h1, t1⟩
  · exact absurd h (splitDotsChars_ne_nil _)
  · simp [splitDots, h]

theorem getProp_heap_congr {st st₂ : St} (h : st₂.heap = st.heap) (v : Val)
    (k : String) : getProp st₂ v k = getProp st v k := by
  cases v <;> simp [getProp, h]

theorem wsne_heap_congr :
    ∀ (parts : List String) {st st₂ : St}, st₂.heap = st.heap →
      ∀ (t : Nat) (v vf : Val),
      WalkStepsNe st t v parts vf → WalkStepsNe st₂ t v parts vf := by
  intro parts
  induction parts with
  | nil => intro st st₂ h t v vf hw; exact hw
  | cons seg rest ih =>
      intro st st₂ h t v vf hw
      rcases hw with ⟨hne, w, hwp, hrest⟩
      exact ⟨hne, w, by rw [getProp_heap_congr h]; exact hwp,
        ih h t w vf hrest⟩

/-- If the reading walk already completes in the starting state, a
successful walk/create/merge loop run returns the very container the
pre-existing walk reaches: the merge step mutates it but never replaces
it. -/
theorem nsLoop_complete_ret :
    ∀ (parts : List String) (st : St) (v vf : Val) (lit tA : Nat) (lo : Obj)
      (st₁ : St) (tr : List Val),
      st.WF →
      alistGet st.heap lit = some lo →
      (roWalk st v parts ++ [Val.ref lit]).Nodup →
      parts.foldlM (getProp st) v = some vf →
      nsLoop st v lit parts = (st₁, .ok (.ref tA, tr)) →
      vf = .ref tA := by
  intro parts
  induction parts with
  | nil =>
      intro st v vf lit tA lo st₁ tr hwf hlit hnd hfold hns
      have hv : v = vf := by simpa using hfold
      have h2 := congrArg Prod.snd hns
      simp [nsLoop] at h2
      rw [← hv, h2.1]
  | cons seg rest ih =>
      intro st v vf lit tA lo st₁ tr hwf hlit hnd hfold hns
      rcases hg : getProp st v seg with _ | w
      · rw [show (seg :: rest).foldlM (getProp st) v =
          (getProp st v seg >>= fun b => rest.foldlM (getProp st) b)
          from rfl, hg] at hfold
        cases hfold
      · have hfold' : rest.foldlM (getProp st) w = some vf := by
          rw [show (seg :: rest).foldlM (getProp st) v =
            (getProp st v seg >>= fun b => rest.foldlM (getProp st) b)
            from rfl, hg] at hfold
          exact hfold
        have hro : roWalk st v (seg :: rest) = v :: roWalk st w rest :=
          roWalk_cons_some rest hg
        rw [hro] at hnd
        have hndtail : (roWalk st w rest ++ [Val.ref lit]).Nodup := by
          rw [List.cons_append] at hnd
          exact hnd.of_cons
        cases rest with
        | nil =>
            have hvf : w = vf := by simpa using hfold'
            cases w with
            | num n =>
                exact absurd hns (by
                  intro hh
                  exact nsLoop_single_prim_absurd st v (.num n) lit seg hg
                    (fun b h => by cases h) st₁ tA tr hh)
            | str s =>
                exact absurd hns (by
                  intro hh
                  exact nsLoop_single_prim_absurd st v (.str s) lit seg hg
                    (fun b h => by cases h) st₁ tA tr hh)
            | boolV bb =>
                exact absurd hns (by
                  intro hh
                  exact nsLoop_single_prim_absurd st v (.boolV bb) lit seg hg
                    (fun b h => by cases h) st₁ tA tr hh)
            | ref tW =>
                rcases getProp_some_cases hg with ⟨a, ao, hv, ha, hf⟩
                have hanew : a ≠ tW := by
                  intro hh
                  subst hh
                  subst hv
                  rw [show roWalk st (Val.ref a) [] = [Val.ref a] from rfl]
                    at hnd
                  simp at hnd
                rcases hoW : alistGet st.heap tW with _ | oW
                · -- the existing value dangles: merge no-ops or throws
                  cases hlf : litFields st lit with
                  | nil =>
                      have hstep : nsStep st v lit seg true = (st, .ok ()) := by
                        rw [@nsStep_present_last st v (.ref tW) lit seg hg, hlf]
                        rfl
                      have heq := nsLoop_cons_ok hstep hg
                        (show nsLoop st (.ref tW) lit [] =
                          (st, .ok (.ref tW, [.ref tW])) from rfl)
                      rw [heq] at hns
                      have h2 := congrArg Prod.snd hns
                      simp at h2
                      rw [← hvf, h2.1]
                  | cons p fs =>
                      obtain ⟨k, x⟩ := p
                      have hml : mergeLoop st v seg ((k, x) :: fs) =
                          (st, .error .typeError) := by
                        simp only [mergeLoop, hg, setProp, hoW]
                      have hstep : nsStep st v lit seg true =
                          (st, .error .typeError) := by
                        rw [@nsStep_present_last st v (.ref tW) lit seg hg,
                          hlf, hml]
                      have heq := @nsLoop_cons_err st st v lit seg []
                        .typeError hstep
                      rw [heq] at hns
                      simp at hns
                · subst hv
                  rcases nsStep_present_last_spec st a tW lit seg oW lo hwf
                    hg hanew hoW hlit with ⟨st₂, hstep, _, _, _, _, _, _, hre₂⟩
                  have heq := nsLoop_cons_ok hstep hre₂
                    (show nsLoop st₂ (.ref tW) lit [] =
                      (st₂, .ok (.ref tW, [.ref tW])) from rfl)
                  rw [heq] at hns
                  have h2 := congrArg Prod.snd hns
                  simp at h2
                  rw [← hvf, h2.1]
        | cons r rest₂ =>
            have hstep := @nsStep_present_mid st v w lit seg hg
            rcases hrec : nsLoop st w lit (r :: rest₂) with ⟨st₂, res⟩
            cases res with
            | error e =>
                rw [nsLoop_cons_rec_err hstep hg hrec] at hns
                simp at hns
            | ok pr =>
                obtain ⟨vf₂, tr₂⟩ := pr
                rw [nsLoop_cons_ok hstep hg hrec] at hns
                have hst : st₂ = st₁ ∧ vf₂ = .ref tA := by
                  have h1 := congrArg Prod.fst hns
                  have h2 := congrArg Prod.snd hns
                  simp at h1 h2
                  exact ⟨h1, h2.1⟩
                obtain ⟨hst1, hst2⟩ := hst
                subst hst1
                subst hst2
                exact ih st w vf lit tA lo st₂ tr₂ hwf hlit hndtail
                  hfold' hrec

/-- C1: for every non-empty dot-separated path and member literal, under
the spec's section-3 tree data model (the containers the pre-existing walk
passes through and the literal are pairwise distinct, valid heap objects),
a `register(p, m)` call that returns normally leaves every key of `m`
retrievable on the container reached by walking the segments of `p` from
the root — which is exactly the container `register` returned. -/
theorem c1_register_keys_retrievable (st : St) (path : String) (lit : Nat)
    (lo : Obj) (st' : St) (r : NsOk)
    (hwf : st.WF)
    (hpath : path ≠ "")
    (hlo : alistGet st.heap lit = some lo)
    (hnd : (roWalk st (.ref rootAddr) (splitDots path) ++ [Val.ref lit]).Nodup)
    (hvalid : ∀ u ∈ roWalk st (.ref rootAddr) (splitDots path), ∀ b,
      u = .ref b → (alistGet st.heap b).isSome)
    (hrun : namespaceOp st path (some lit) = (st', .ok r)) :
    walkPath st' path = some (.ref r.ret) ∧
    ∀ k, k ∈ keysOf lo.fields → (getProp st' (.ref r.ret) k).isSome := by
  rcases namespaceOp_ok_inv st path lit st' r hrun with
    ⟨st₁, cA, o, pp, cc, oT, hns, hview, hcls, hkind, hT, hst', hfired⟩
  rw [if_neg hpath] at hns
  have hcr := nsLoop_clean (splitDots path) st (.ref rootAddr) lit r.ret lo
    st₁ r.trace (splitDots_ne_nil path) hwf hlo hnd hvalid hns
  have hTA : alistGet (alloc st₁ ⟨.cls (some cA) (some ⟨fqName path, r.ret⟩),
      []⟩).1.heap r.ret = some oT := alistGet_append_left _ hT
  have hheap : st'.heap = (setProp (alloc st₁ ⟨.cls (some cA)
      (some ⟨fqName path, r.ret⟩), []⟩).1 (.ref r.ret) "View"
      (.ref st₁.next)).1.heap := by
    rw [setProp_eq hTA "View" (.ref st₁.next), hst']
    rfl
  have hw1 : WalkStepsNe st' r.ret (.ref rootAddr) (splitDots path)
      (.ref r.ret) :=
    wsne_heap_congr (splitDots path) hheap r.ret _ _
      (wsne_setProp_avoid (splitDots path) _ r.ret _ _ (.ref st₁.next) "View"
        (wsne_alloc (splitDots path) st₁ r.ret _ _ _ hcr.wsne))
  have hwalk : walkPath st' path = some (.ref r.ret) := by
    unfold walkPath
    rw [if_neg hpath]
    exact wsne_toWalk (splitDots path) st' r.ret _ _ hw1
  refine ⟨hwalk, ?_⟩
  intro k hk
  have hkey := hcr.keysNew k hk
  have hsome : (alistGet lo.fields k).isSome := by
    rw [alistGet_isSome_iff_mem]
    exact hk
  have hT' : alistGet st'.heap r.ret =
      some ⟨oT.kind, alistSet oT.fields "View" (.ref st₁.next)⟩ := by
    rw [hst']
    exact alistGet_set_self _ _ _
  rw [getProp_of_obj hT']
  by_cases hkv : k = "View"
  · subst hkv
    simp [alistGet_set_self]
  · rw [alistGet_set_ne oT.fields "View" k (.ref st₁.next) hkv]
    have hgp : getProp st₁ (.ref r.ret) k = alistGet oT.fields k :=
      getProp_of_obj hT k
    rw [← hgp, hkey]
    exact hsome

/-- Witness for C1: `register("x.y", {View: bloomberg.View, k: 7})` on the
freshly initialised module leaves both keys retrievable at the container
walking `"x.y"` reaches, which is the returned container (the literal,
address 12). -/
theorem c1_witness :
    walkPath (namespaceOp stDeepLit "x.y" (some 12)).1 "x.y" =
      some (.ref (12 : Nat)) ∧
    ∀ k, k ∈ keysOf [("View", Val.ref 6), ("k", Val.num 7)] →
      (getProp (namespaceOp stDeepLit "x.y" (some 12)).1
        (.ref (12 : Nat)) k).isSome := by
  have h := c1_register_keys_retrievable stDeepLit "x.y" 12
    ⟨.plain, [("View", .ref 6), ("k", .num 7)]⟩
    (namespaceOp stDeepLit "x.y" (some 12)).1
    ⟨12, [], [.ref 0, .ref 13, .ref 12]⟩
    (by decide) (by decide) (by decide) (by decide)
    (by
      intro u hu b hb
      rw [hb] at hu
      rw [show roWalk stDeepLit (.ref rootAddr) (splitDots "x.y") =
        [.ref rootAddr] from by decide] at hu
      simp at hu
      subst hu
      decide)
    (by decide)
  exact h

/-- When the reading walk does not complete in the starting state, a
successful walk/create/merge loop run decomposes at the boundary: the
segments before position `j` (the index of the first absent link) descend
through pre-existing containers without touching them, the deepest
pre-existing container `wa` gains exactly the one link for the boundary
segment, and every further segment receives a freshly created container
holding exactly the single link the descent installed. -/
theorem nsLoop_boundary :
    ∀ (parts : List String) (st : St) (v : Val) (lit : Nat) (lo : Obj)
      (st₁ : St) (tA : Nat) (tr : List Val),
      st.WF →
      alistGet st.heap lit = some lo →
      (roWalk st v parts ++ [Val.ref lit]).Nodup →
      (∀ u ∈ roWalk st v parts, ∀ b, u = .ref b →
        (alistGet st.heap b).isSome) →
      (roWalk st v parts).length ≤ parts.length →
      nsLoop st v lit parts = (st₁, .ok (.ref tA, tr)) →
      ∃ j wa ao bseg post w,
        j + 1 = (roWalk st v parts).length ∧
        Val.ref wa = (roWalk st v parts).getLastD v ∧
        parts.drop j = bseg :: post ∧
        alistGet st.heap wa = some ao ∧
        alistGet ao.fields bseg = none ∧
        (∀ b, b < st.next → b ≠ wa →
          alistGet st₁.heap b = alistGet st.heap b) ∧
        alistGet st₁.heap wa = some ⟨ao.kind, ao.fields ++ [(bseg, w)]⟩ ∧
        WalkStepsNe st₁ lit v parts (.ref lit) ∧
        (∀ i seg' rest', (parts.drop j).drop (i + 1) = seg' :: rest' →
          ∃ f w', WalkStepsNe st₁ lit (.ref wa)
              ((parts.drop j).take (i + 1)) (.ref f) ∧
            st.next ≤ f ∧
            alistGet st₁.heap f = some ⟨.plain, [(seg', w')]⟩) := by
  intro parts
  induction parts with
  | nil =>
      intro st v lit lo st₁ tA tr _ _ _ _ hlen _
      simp [roWalk] at hlen
  | cons seg rest ih =>
      intro st v lit lo st₁ tA tr hwf hlit hnd hvalid hlen hns
      cases v with
      | num n =>
          rcases nsStep_prim_err st (.num n) lit seg rest.isEmpty
            (fun a h => by cases h) with ⟨st₂, hstep⟩
          rw [nsLoop_cons_err hstep] at hns
          simp at hns
      | str s =>
          rcases nsStep_prim_err st (.str s) lit seg rest.isEmpty
            (fun a h => by cases h) with ⟨st₂, hstep⟩
          rw [nsLoop_cons_err hstep] at hns
          simp at hns
      | boolV bb =>
          rcases nsStep_prim_err st (.boolV bb) lit seg rest.isEmpty
            (fun a h => by cases h) with ⟨st₂, hstep⟩
          rw [nsLoop_cons_err hstep] at hns
          simp at hns
      | ref a =>
          have hvmem : Val.ref a ∈ roWalk st (.ref a) (seg :: rest) := by
            cases hg : getProp st (.ref a) seg with
            | some w =>
                rw [roWalk_cons_some rest hg]; exact List.mem_cons_self _ _
            | none =>
                rw [roWalk_cons_none rest hg]; exact List.mem_cons_self _ _
          have haval := hvalid _ hvmem a rfl
          rcases hao : alistGet st.heap a with _ | ao
          · rw [hao] at haval; cases haval
          cases hg : getProp st (.ref a) seg with
          | none =>
              have hseg : alistGet ao.fields seg = none := by
                rw [getProp_of_obj hao] at hg; exact hg
              have hro : roWalk st (.ref a) (seg :: rest) = [.ref a] :=
                roWalk_cons_none rest hg
              rw [hro] at hnd
              have hane : a ≠ lit := by
                intro hh
                subst hh
                simp at hnd
              rcases nsLoop_create rest seg st a lit ao lo hwf hao hseg hlit
                hane with ⟨st', tr', heq, _, _, _, _, hframe, hafld, hwsne,
                  hmade⟩
              rw [heq] at hns
              have hst : st' = st₁ ∧ lit = tA := by
                have h1 := congrArg Prod.fst hns
                have h2 := congrArg Prod.snd hns
                simp at h1 h2
                exact ⟨h1, h2.1⟩
              obtain ⟨hst1, _⟩ := hst
              subst hst1
              rcases hafld with ⟨w, hw⟩
              refine ⟨0, a, ao, seg, rest, w, by rw [hro]; rfl,
                by rw [hro]; rfl, rfl, hao, hseg, ?_, hw, hwsne, hmade⟩
              intro b hblt hba
              exact hframe b hba hblt
          | some w =>
              have hro : roWalk st (.ref a) (seg :: rest) =
                  .ref a :: roWalk st w rest := roWalk_cons_some rest hg
              rw [hro] at hnd hvalid hlen
              have hndtail : (roWalk st w rest ++ [Val.ref lit]).Nodup := by
                rw [List.cons_append] at hnd
                exact hnd.of_cons
              have hanotin : Val.ref a ∉ roWalk st w rest ++ [Val.ref lit] := by
                rw [List.cons_append] at hnd
                exact (List.nodup_cons.mp hnd).1
              cases rest with
              | nil =>
                  rw [show roWalk st w [] = [w] from rfl] at hlen
                  simp at hlen
              | cons r rest₂ =>
                  have hstep := @nsStep_present_mid st (.ref a) w lit seg hg
                  rcases hrec : nsLoop st w lit (r :: rest₂) with ⟨st₂, res⟩
                  cases res with
                  | error e =>
                      rw [nsLoop_cons_rec_err hstep hg hrec] at hns
                      simp at hns
                  | ok pr =>
                      obtain ⟨vf, tr₂⟩ := pr
                      rw [nsLoop_cons_ok hstep hg hrec] at hns
                      have hst : st₂ = st₁ ∧ vf = .ref tA := by
                        have h1 := congrArg Prod.fst hns
                        have h2 := congrArg Prod.snd hns
                        simp at h1 h2
                        exact ⟨h1, h2.1⟩
                      obtain ⟨hst1, hst2⟩ := hst
                      subst hst1
                      subst hst2
                      have hlen' : (roWalk st w (r :: rest₂)).length ≤
                          (r :: rest₂).length := by
                        simp only [List.length_cons, Nat.succ_le_succ_iff]
                          at hlen
                        exact hlen
                      rcases ih st w lit lo st₂ tA tr₂ hwf hlit hndtail
                        (fun u hu b hb =>
                          hvalid u (List.mem_cons_of_mem _ hu) b hb)
                        hlen' hrec with
                        ⟨j', wa, ao', bseg, post, w', hj', hlast', hdrop',
                          hao', hbseg, hframe', hwafld, hwsne', hmade'⟩
                      have htailne : roWalk st w (r :: rest₂) ≠ [] :=
                        roWalk_ne_nil _ _ _
                      have halt : a < st.next := WF_get_lt hwf hao
                      have hawa : a ≠ wa := by
                        intro hh
                        subst hh
                        refine hanotin (List.mem_append_left _ ?_)
                        rw [hlast']
                        exact getLastD_mem _ _ htailne
                      have hao₁ : alistGet st₂.heap a = some ao :=
                        (hframe' a halt hawa).trans hao
                      have hlink₁ : getProp st₂ (.ref a) seg = some w := by
                        rw [getProp_of_obj hao₁]
                        rw [getProp_of_obj hao] at hg
                        exact hg
                      have hanelit : Val.ref a ≠ Val.ref lit := fun hh => by
                        refine hanotin (List.mem_append_right _ ?_)
                        rw [hh]
                        exact List.mem_singleton.mpr rfl
                      refine ⟨j' + 1, wa, ao', bseg, post, w', ?_, ?_,
                        hdrop', hao', hbseg, hframe', hwafld,
                        ⟨hanelit, w, hlink₁, hwsne'⟩, hmade'⟩
                      · rw [hro, List.length_cons, ← hj']
                      · rw [hro, List.getLastD_cons,
                          getLastD_irrel _ _ w htailne]
                        exact hlast'

/-- C7: on a multi-segment path, under the section-3 tree data model, a
successful `register` auto-creates a container at each segment past the
deepest pre-existing one (each created container is fresh and holds
exactly the single link the descent installed), the deepest pre-existing
container gains exactly the one link for the first missing segment, and
every other pre-existing container — in particular every existing
intermediate the walk descends through — is left completely unchanged. -/
theorem c7_intermediates_created_existing_untouched (st : St)
    (path : String) (lit : Nat) (lo : Obj) (st' : St) (r : NsOk)
    (hwf : st.WF)
    (hpath : path ≠ "")
    (hlo : alistGet st.heap lit = some lo)
    (hnd : (roWalk st (.ref rootAddr) (splitDots path) ++ [Val.ref lit]).Nodup)
    (hvalid : ∀ u ∈ roWalk st (.ref rootAddr) (splitDots path), ∀ b,
      u = .ref b → (alistGet st.heap b).isSome)
    (hlen : (roWalk st (.ref rootAddr) (splitDots path)).length ≤
      (splitDots path).length)
    (hrun : namespaceOp st path (some lit) = (st', .ok r)) :
    ∃ j wa ao bseg post w,
      j + 1 = (roWalk st (.ref rootAddr) (splitDots path)).length ∧
      Val.ref wa = (roWalk st (.ref rootAddr) (splitDots path)).getLastD
        (.ref rootAddr) ∧
      (splitDots path).drop j = bseg :: post ∧
      alistGet st.heap wa = some ao ∧
      alistGet ao.fields bseg = none ∧
      (∀ b, b < st.next → b ≠ wa → b ≠ lit →
        alistGet st'.heap b = alistGet st.heap b) ∧
      alistGet st'.heap wa = some ⟨ao.kind, ao.fields ++ [(bseg, w)]⟩ ∧
      (∀ i seg' rest', ((splitDots path).drop j).drop (i + 1) =
          seg' :: rest' →
        ∃ f w', st.next ≤ f ∧
          alistGet st'.heap f = some ⟨.plain, [(seg', w')]⟩) := by
  rcases namespaceOp_ok_inv st path lit st' r hrun with
    ⟨st₁, cA, o, pp, cc, oT, hns, hview, hcls, hkind, hT, hst', hfired⟩
  rw [if_neg hpath] at hns
  have hcr := nsLoop_clean (splitDots path) st (.ref rootAddr) lit r.ret lo
    st₁ r.trace (splitDots_ne_nil path) hwf hlo hnd hvalid hns
  have hret : r.ret = lit := hcr.retAssign hlen
  have hnext1 : st.next ≤ st₁.next := by
    have h3 := (nsLoop_frame (splitDots path) st (.ref rootAddr) lit).2.2
    rw [hns] at h3
    exact h3
  have hwf₁ : st₁.WF := by
    have := nsLoop_WF (splitDots path) st (.ref rootAddr) lit hwf
    rw [hns] at this
    exact this
  have hlitlt : lit < st.next := WF_get_lt hwf hlo
  have htrans : ∀ b, b ≠ r.ret → b < st₁.next →
      alistGet st'.heap b = alistGet st₁.heap b := by
    intro b hbr hblt
    rw [hst']
    show alistGet (alistSet _ r.ret _) b = _
    rw [alistGet_set_ne _ r.ret b _ hbr]
    cases hb1 : alistGet st₁.heap b with
    | some ob => exact alistGet_append_left _ hb1
    | none =>
        rw [alistGet_append_right _ hb1]
        simp [alistGet, Nat.ne_of_gt hblt]
  rcases nsLoop_boundary (splitDots path) st (.ref rootAddr) lit lo st₁
    r.ret r.trace hwf hlo hnd hvalid hlen hns with
    ⟨j, wa, ao, bseg, post, w, hj, hlast, hdrop, hao, hbseg, hframe,
      hwafld, hwsne, hmade⟩
  have hwalt : wa < st.next := WF_get_lt hwf hao
  have hwane : wa ≠ lit := by
    intro hh
    subst hh
    have hmem : Val.ref wa ∈ roWalk st (.ref rootAddr) (splitDots path) := by
      rw [hlast]
      exact getLastD_mem _ _ (roWalk_ne_nil _ _ _)
    rcases List.nodup_append.mp hnd with ⟨h1, h2, hdisj⟩
    exact hdisj hmem (List.mem_singleton.mpr rfl)
  refine ⟨j, wa, ao, bseg, post, w, hj, hlast, hdrop, hao, hbseg, ?_, ?_, ?_⟩
  · intro b hblt hbwa hblit
    rw [htrans b (by rw [hret]; exact hblit) (lt_of_lt_of_le hblt hnext1)]
    exact hframe b hblt hbwa
  · rw [htrans wa (by rw [hret]; exact hwane)
      (lt_of_lt_of_le hwalt hnext1)]
    exact hwafld
  · intro i seg' rest' hdr
    rcases hmade i seg' rest' hdr with ⟨f, w', hwsf, hfle, hffld⟩
    have hflt : f < st₁.next := WF_get_lt hwf₁ hffld
    have hfne : f ≠ r.ret := by
      rw [hret]
      exact fun hh => absurd (hh ▸ hfle) (not_le.mpr hlitlt)
    refine ⟨f, w', hfle, ?_⟩
    rw [htrans f hfne hflt]
    exact hffld

/-- Witness for C7 at `register("x.y.z", {View: bloomberg.View, k: 7})` on
the freshly initialised module: the root is the deepest pre-existing
container (it gains the single link `x`), and fresh single-link containers
are created for the further intermediate segments. -/
theorem c7_witness :
    ∃ j wa ao bseg post w,
      j + 1 = (roWalk stDeepLit (.ref rootAddr) (splitDots "x.y.z")).length ∧
      Val.ref wa = (roWalk stDeepLit (.ref rootAddr)
        (splitDots "x.y.z")).getLastD (.ref rootAddr) ∧
      (splitDots "x.y.z").drop j = bseg :: post ∧
      alistGet stDeepLit.heap wa = some ao ∧
      alistGet ao.fields bseg = none ∧
      (∀ b, b < stDeepLit.next → b ≠ wa → b ≠ 12 →
        alistGet (namespaceOp stDeepLit "x.y.z" (some 12)).1.heap b =
          alistGet stDeepLit.heap b) ∧
      alistGet (namespaceOp stDeepLit "x.y.z" (some 12)).1.heap wa =
        some ⟨ao.kind, ao.fields ++ [(bseg, w)]⟩ ∧
      (∀ i seg' rest', ((splitDots "x.y.z").drop j).drop (i + 1) =
          seg' :: rest' →
        ∃ f w', stDeepLit.next ≤ f ∧
          alistGet (namespaceOp stDeepLit "x.y.z" (some 12)).1.heap f =
            some ⟨.plain, [(seg', w')]⟩) := by
  exact c7_intermediates_created_existing_untouched stDeepLit "x.y.z" 12
    ⟨.plain, [("View", .ref 6), ("k", .num 7)]⟩
    (namespaceOp stDeepLit "x.y.z" (some 12)).1
    ⟨12, [], [.ref 0, .ref 13, .ref 14, .ref 12]⟩
    (by decide) (by decide) (by decide) (by decide)
    (by
      intro u hu b hb
      rw [hb] at hu
      rw [show roWalk stDeepLit (.ref rootAddr) (splitDots "x.y.z") =
        [.ref rootAddr] from by decide] at hu
      simp at hu
      subst hu
      decide)
    (by decide) (by decide)

/-- Counterexample to C5 as stated: with the disjoint literals
`m1 = {View: bloomberg.View}` and `m2 = {total: 0}`, after
`register("a", m1)` then `register("a", m2)` the container reached by
walking `"a"` does not hold `m1`'s value for the key `View` (the registrar
replaced it with a fresh extension class), so its members are not the
union of `m1` and `m2`. -/
theorem c5_counterexample :
    (namespaceOp stDisjLits "a" (some 12)).2 =
      .ok ⟨12, [], [.ref 0, .ref 12]⟩ ∧
    (namespaceOp stDisj1 "a" (some 13)).2 =
      .ok ⟨12, [], [.ref 0, .ref 12]⟩ ∧
    alistGet (litFields stDisjLits 12) "View" = some (.ref 6) ∧
    alistGet (litFields stDisjLits 13) "View" = none ∧
    walkPath (namespaceOp stDisj1 "a" (some 13)).1 "a" = some (.ref 12) ∧
    getProp (namespaceOp stDisj1 "a" (some 13)).1 (.ref 12) "View" ≠
      some (.ref 6) := by
  decide

/-- C5 (amended): re-registering an existing path merges into, and does
not replace, the existing container.  Under the section-3 tree model, if
the path already walks to a container `w`, a successful
`register(p, m2)` returns that very container; afterwards its key set is
the union of its previous keys and `m2`'s keys, its previous members not
named by `m2` are unchanged, and `m2`'s members other than `View` are
stored verbatim (only `View` is special: claim C9's extension). -/
theorem c5_second_register_merges (st : St) (path : String) (lit : Nat)
    (lo : Obj) (w : Val) (st' : St) (r : NsOk)
    (hwf : st.WF)
    (hpath : path ≠ "")
    (hlo : alistGet st.heap lit = some lo)
    (hnd : (roWalk st (.ref rootAddr) (splitDots path) ++ [Val.ref lit]).Nodup)
    (hvalid : ∀ u ∈ roWalk st (.ref rootAddr) (splitDots path), ∀ b,
      u = .ref b → (alistGet st.heap b).isSome)
    (hwalk : walkPath st path = some w)
    (hrun : namespaceOp st path (some lit) = (st', .ok r)) :
    w = .ref r.ret ∧
    (∀ k, (getProp st' (.ref r.ret) k).isSome ↔
      ((getProp st (.ref r.ret) k).isSome ∨ k ∈ keysOf lo.fields)) ∧
    (∀ k, k ∉ keysOf lo.fields → k ≠ "View" →
      getProp st' (.ref r.ret) k = getProp st (.ref r.ret) k) ∧
    (∀ k, k ∈ keysOf lo.fields → k ≠ "View" →
      getProp st' (.ref r.ret) k = alistGet lo.fields k) := by
  rcases namespaceOp_ok_inv st path lit st' r hrun with
    ⟨st₁, cA, o, pp, cc, oT, hns, hview, hcls, hkind, hT, hst', hfired⟩
  rw [if_neg hpath] at hns
  have hcr := nsLoop_clean (splitDots path) st (.ref rootAddr) lit r.ret lo
    st₁ r.trace (splitDots_ne_nil path) hwf hlo hnd hvalid hns
  rw [walkPath, if_neg hpath] at hwalk
  have hwret : w = .ref r.ret :=
    nsLoop_complete_ret (splitDots path) st (.ref rootAddr) w lit r.ret lo
      st₁ r.trace hwf hlo hnd hwalk hns
  have hT' : alistGet st'.heap r.ret =
      some ⟨oT.kind, alistSet oT.fields "View" (.ref st₁.next)⟩ := by
    rw [hst']
    exact alistGet_set_self _ _ _
  have hpost : ∀ k, k ≠ "View" →
      getProp st' (.ref r.ret) k = getProp st₁ (.ref r.ret) k := by
    intro k hk
    rw [getProp_of_obj hT', getProp_of_obj hT]
    exact alistGet_set_ne oT.fields "View" k (.ref st₁.next) hk
  refine ⟨hwret, ?_, ?_, ?_⟩
  · intro k
    by_cases hk : k = "View"
    · subst hk
      constructor
      · intro _
        rw [← hcr.keysIff "View", hview]
        rfl
      · intro _
        rw [getProp_of_obj hT']
        simp [alistGet_set_self]
    · rw [hpost k hk]
      exact hcr.keysIff k
  · intro k hk hkv
    rw [hpost k hkv]
    exact hcr.keysOld k hk
  · intro k hk hkv
    rw [hpost k hkv]
    exact hcr.keysNew k hk

/-- Witness for C5 (amended) at the spec-style pair of calls
`register("a", {View: bloomberg.View})` then `register("a", {total: 0})`:
the second call returns the existing container 12, whose keys become the
union and whose `total` member is stored verbatim. -/
theorem c5_witness :
    Val.ref 12 = Val.ref ((12 : Nat)) ∧
    (∀ k, (getProp (namespaceOp stDisj1 "a" (some 13)).1
        (.ref (12 : Nat)) k).isSome ↔
      ((getProp stDisj1 (.ref (12 : Nat)) k).isSome ∨
        k ∈ keysOf [("total", Val.num 0)])) ∧
    (∀ k, k ∉ keysOf [("total", Val.num 0)] → k ≠ "View" →
      getProp (namespaceOp stDisj1 "a" (some 13)).1 (.ref (12 : Nat)) k =
        getProp stDisj1 (.ref (12 : Nat)) k) ∧
    (∀ k, k ∈ keysOf [("total", Val.num 0)] → k ≠ "View" →
      getProp (namespaceOp stDisj1 "a" (some 13)).1 (.ref (12 : Nat)) k =
        alistGet [("total", Val.num 0)] k) := by
  exact c5_second_register_merges stDisj1 "a" 13
    ⟨.plain, [("total", .num 0)]⟩ (.ref 12)
    (namespaceOp stDisj1 "a" (some 13)).1 ⟨12, [], [.ref 0, .ref 12]⟩
    (by decide) (by decide) (by decide) (by decide)
    (by
      intro u hu b hb
      rw [hb] at hu
      rw [show roWalk stDisj1 (.ref rootAddr) (splitDots "a") =
        [.ref rootAddr, .ref 12] from by decide] at hu
      simp at hu
      rcases hu with h | h
      · subst h
        decide
      · subst h
        decide)
    (by decide) (by decide)

/-- Counterexample to C6 as stated: with the overlapping literals
`m1 = {View: bloomberg.View, total: 0}` and `m2 = {View: bloomberg.View}`,
after `register("a", m1)` then `register("a", m2)` the container at `"a"`
does not hold `m2`'s value for the shared key `View`: the registrar
overwrote the merged-in value with a fresh extension class. -/
theorem c6_counterexample :
    (namespaceOp stOverlapLits "a" (some 12)).2 =
      .ok ⟨12, [], [.ref 0, .ref 12]⟩ ∧
    (namespaceOp stOverlap1 "a" (some 13)).2 =
      .ok ⟨12, [], [.ref 0, .ref 12]⟩ ∧
    alistGet (litFields stOverlapLits 12) "View" = some (.ref 6) ∧
    alistGet (litFields stOverlapLits 13) "View" = some (.ref 6) ∧
    walkPath (namespaceOp stOverlap1 "a" (some 13)).1 "a" = some (.ref 12) ∧
    getProp (namespaceOp stOverlap1 "a" (some 13)).1 (.ref 12) "View" ≠
      some (.ref 6) := by
  decide

/-- C6 (amended): in a successful re-registration the second call's
values do win for every key of `m2` other than `View` (shallow one-level
merge, overwriting same-named keys), but for the key `View` — present in
`m2` here — the container ends up holding not `m2`'s value but a
reference to a fresh class extending it, carrying the fully-qualified
path and the container in its prototype config. -/
theorem c6_overlap_view_excepted (st : St) (path : String) (lit : Nat)
    (lo : Obj) (st' : St) (r : NsOk)
    (hwf : st.WF)
    (hpath : path ≠ "")
    (hlo : alistGet st.heap lit = some lo)
    (hnd : (roWalk st (.ref rootAddr) (splitDots path) ++ [Val.ref lit]).Nodup)
    (hvalid : ∀ u ∈ roWalk st (.ref rootAddr) (splitDots path), ∀ b,
      u = .ref b → (alistGet st.heap b).isSome)
    (hvkey : "View" ∈ keysOf lo.fields)
    (hrun : namespaceOp st path (some lit) = (st', .ok r)) :
    (∀ k, k ∈ keysOf lo.fields → k ≠ "View" →
      getProp st' (.ref r.ret) k = alistGet lo.fields k) ∧
    ∃ cA e eo, alistGet lo.fields "View" = some (.ref cA) ∧
      getProp st' (.ref r.ret) "View" = some (.ref e) ∧
      e ≠ cA ∧
      alistGet st'.heap e = some eo ∧
      eo.kind = .cls (some cA) (some ⟨fqName path, r.ret⟩) ∧
      eo.fields = [] := by
  rcases namespaceOp_ok_inv st path lit st' r hrun with
    ⟨st₁, cA, o, pp, cc, oT, hns, hview, hcls, hkind, hT, hst', hfired⟩
  rw [if_neg hpath] at hns
  have hcr := nsLoop_clean (splitDots path) st (.ref rootAddr) lit r.ret lo
    st₁ r.trace (splitDots_ne_nil path) hwf hlo hnd hvalid hns
  have hwf₁ : st₁.WF := by
    have := nsLoop_WF (splitDots path) st (.ref rootAddr) lit hwf
    rw [hns] at this
    exact this
  have hT' : alistGet st'.heap r.ret =
      some ⟨oT.kind, alistSet oT.fields "View" (.ref st₁.next)⟩ := by
    rw [hst']
    exact alistGet_set_self _ _ _
  have hloV : alistGet lo.fields "View" = some (.ref cA) := by
    rw [← hcr.keysNew "View" hvkey]
    exact hview
  have hrlt : r.ret < st₁.next := WF_get_lt hwf₁ hT
  have hclt : cA < st₁.next := WF_get_lt hwf₁ hcls
  refine ⟨?_, cA, st₁.next,
    ⟨.cls (some cA) (some ⟨fqName path, r.ret⟩), []⟩, hloV, ?_, ?_, ?_, rfl,
    rfl⟩
  · intro k hk hkv
    rw [getProp_of_obj hT',
      alistGet_set_ne oT.fields "View" k (.ref st₁.next) hkv]
    have h1 := hcr.keysNew k hk
    rw [getProp_of_obj hT k] at h1
    exact h1
  · rw [getProp_of_obj hT']
    simp [alistGet_set_self]
  · exact (Nat.ne_of_lt hclt).symm
  · rw [hst']
    show alistGet (alistSet _ r.ret _) st₁.next = _
    rw [alistGet_set_ne _ r.ret st₁.next _ (Nat.ne_of_lt hrlt).symm,
      alistGet_append_right _ (WF_next_none hwf₁)]
    simp [alistGet]

/-- Witness for C6 (amended) at `register("a", {View, total})` then
`register("a", {View})`: the overlapping `View` key ends up holding a
fresh extension of `m2`'s class, not `m2`'s value. -/
theorem c6_witness :
    (∀ k, k ∈ keysOf [("View", Val.ref 6)] → k ≠ "View" →
      getProp (namespaceOp stOverlap1 "a" (some 13)).1 (.ref (12 : Nat)) k =
        alistGet [("View", Val.ref 6)] k) ∧
    ∃ cA e eo, alistGet [("View", Val.ref 6)] "View" = some (.ref cA) ∧
      getProp (namespaceOp stOverlap1 "a" (some 13)).1 (.ref (12 : Nat))
        "View" = some (.ref e) ∧
      e ≠ cA ∧
      alistGet (namespaceOp stOverlap1 "a" (some 13)).1.heap e = some eo ∧
      eo.kind = .cls (some cA) (some ⟨fqName "a", (12 : Nat)⟩) ∧
      eo.fields = [] := by
  exact c6_overlap_view_excepted stOverlap1 "a" 13
    ⟨.plain, [("View", .ref 6)]⟩
    (namespaceOp stOverlap1 "a" (some 13)).1 ⟨12, [], [.ref 0, .ref 12]⟩
    (by decide) (by decide) (by decide) (by decide)
    (by
      intro u hu b hb
      rw [hb] at hu
      rw [show roWalk stOverlap1 (.ref rootAddr) (splitDots "a") =
        [.ref rootAddr, .ref 12] from by decide] at hu
      simp at hu
      rcases hu with h | h
      · subst h
        decide
      · subst h
        decide)
    (by decide) (by decide)

end BW
